/-
Verification of the scipp coordinate-transform graph engine and the
bin-remapping engine against their natural-language specification.

The Python sources are shallowly embedded as executable Lean definitions:
  * `Topo`      : the topological sorter used by `_sort_topologically`
                  (Python `graphlib.TopologicalSorter.static_order`), embedded
                  as Kahn's algorithm.  `static_order` raises `CycleError`
                  when the graph has a cycle; ties between ready nodes are
                  implementation defined, here the first ready node in list
                  order is emitted.
  * `OldCoords` : `src/scipp/coords.py` (rule graph construction, subgraph
                  extraction, rule deduplication, compute-rule evaluation).
  * `TC`        : `src/scipp/coords/transform_coords.py` (result write-back
                  and the dimension-rename coloring analysis).
  * `BinRemap`  : `src/scipp/core/bin_remapping.py` (bin concatenation,
                  offset rebuilding, masked-bin hiding).
-/
import Mathlib

set_option autoImplicit false

namespace Scipp

namespace Topo

/-- Error raised by the topological sorter on a cyclic graph
(Python `graphlib.CycleError`). -/
inductive SortErr where
  | cycle
  deriving DecidableEq, Repr

/-- Dependencies of a node in the sorter graph.  Nodes that are not keys of
the graph (pure predecessors) have no dependencies, as in
`graphlib.TopologicalSorter`. -/
def depsOf (g : List (String × List String)) (n : String) : List String :=
  (g.lookup n).getD []

/-- Helper for `dedupFirst`: drop elements already in `seen`, recording new
ones. -/
def dedupGo (seen : List String) : List String → List String
  | [] => []
  | x :: xs =>
    if x ∈ seen then dedupGo seen xs else x :: dedupGo (x :: seen) xs

/-- Remove duplicates from a list, keeping the first occurrence of each
element. -/
def dedupFirst (l : List String) : List String :=
  dedupGo [] l

/-- The node set of the sorter graph: all keys plus all mentioned
dependencies (`TopologicalSorter` adds predecessor nodes automatically). -/
def sorterNodes (g : List (String × List String)) : List String :=
  dedupFirst (g.map Prod.fst ++ (g.map Prod.snd).flatten)

/-- Find the first node in `remaining` all of whose dependencies have
already been emitted. -/
def pickReady (g : List (String × List String)) (emitted : List String) :
    List String → Option String
  | [] => none
  | n :: rest =>
    if (depsOf g n).all (fun d => decide (d ∈ emitted)) then some n
    else pickReady g emitted rest

theorem pickReady_mem {g : List (String × List String)} {e : List String} :
    ∀ {r : List String} {n : String}, pickReady g e r = some n → n ∈ r := by
  intro r
  induction r with
  | nil => intro n h; simp [pickReady] at h
  | cons x rest ih =>
    intro n h
    simp only [pickReady] at h
    split at h
    · cases h; exact List.mem_cons_self _ _
    · exact List.mem_cons_of_mem _ (ih h)

theorem pickReady_sat {g : List (String × List String)} {e : List String} :
    ∀ {r : List String} {n : String}, pickReady g e r = some n →
      ∀ d ∈ depsOf g n, d ∈ e := by
  intro r
  induction r with
  | nil => intro n h; simp [pickReady] at h
  | cons x rest ih =>
    intro n h
    simp only [pickReady] at h
    split at h
    · cases h
      intro d hd
      rename_i hall
      exact of_decide_eq_true (List.all_eq_true.mp hall d hd)
    · exact ih h

/-- Fuelled main loop of Kahn's algorithm: repeatedly emit a ready node; if
no node is ready and some remain, the graph has a cycle.  Each iteration
removes exactly one node from `remaining`, so fuel `remaining.length`
always suffices and the fuel-exhausted case is unreachable from
`kahnLoop`. -/
def kahnGo (g : List (String × List String)) :
    Nat → List String → List String → Except SortErr (List String)
  | 0, emitted, remaining =>
    if remaining.isEmpty then .ok emitted else .error .cycle
  | fuel + 1, emitted, remaining =>
    match pickReady g emitted remaining with
    | none => if remaining.isEmpty then .ok emitted else .error .cycle
    | some n => kahnGo g fuel (emitted ++ [n]) (remaining.erase n)

/-- The main loop of Kahn's algorithm. -/
def kahnLoop (g : List (String × List String))
    (emitted remaining : List String) : Except SortErr (List String) :=
  kahnGo g remaining.length emitted remaining

/-- Embedding of `_sort_topologically` /
`graphlib.TopologicalSorter(...).static_order()`. -/
def topoSort (g : List (String × List String)) : Except SortErr (List String) :=
  kahnLoop g [] (sorterNodes g)

/-- Custom recursion principle following the call structure of `kahnLoop`. -/
theorem kahn_rec (g : List (String × List String))
    (motive : List String → List String → Prop)
    (h1 : ∀ e r, pickReady g e r = none → motive e r)
    (h2 : ∀ e r n, pickReady g e r = some n →
      motive (e ++ [n]) (r.erase n) → motive e r) :
    ∀ r e, motive e r := by
  have H : ∀ (k : Nat) (r e : List String), r.length ≤ k → motive e r := by
    intro k
    induction k with
    | zero =>
      intro r e hr
      have hnil : r = [] := List.eq_nil_of_length_eq_zero (Nat.le_zero.mp hr)
      subst hnil
      exact h1 e [] rfl
    | succ k ih =>
      intro r e hr
      cases hp : pickReady g e r with
      | none => exact h1 e r hp
      | some n =>
        have hn := pickReady_mem hp
        refine h2 e r n hp (ih _ _ ?_)
        have := List.length_erase_of_mem hn
        have hpos : 0 < r.length := List.length_pos.mpr (by rintro rfl; cases hn)
        omega
  intro r e
  exact H r.length r e le_rfl

theorem kahnLoop_eq_none {g : List (String × List String)}
    {e r : List String} (h : pickReady g e r = none) :
    kahnLoop g e r = if r.isEmpty then .ok e else .error .cycle := by
  unfold kahnLoop
  cases hr : r.length with
  | zero => simp [kahnGo, hr]
  | succ k => simp [kahnGo, h]

theorem kahnLoop_eq_some {g : List (String × List String)}
    {e r : List String} {n : String} (h : pickReady g e r = some n) :
    kahnLoop g e r = kahnLoop g (e ++ [n]) (r.erase n) := by
  have hm : n ∈ r := pickReady_mem h
  have hlen := List.length_erase_of_mem hm
  have hpos : 0 < r.length := List.length_pos.mpr (by rintro rfl; cases hm)
  unfold kahnLoop
  cases hr : r.length with
  | zero => omega
  | succ k =>
    simp only [kahnGo, h]
    have : (r.erase n).length = k := by omega
    rw [this]

/-- A list of nodes respects the graph's dependency order: every node's
dependencies occur strictly before it. -/
def DepsBefore (g : List (String × List String)) (o : List String) : Prop :=
  ∀ (k : Nat) (hk : k < o.length), ∀ d ∈ depsOf g (o.get ⟨k, hk⟩), d ∈ o.take k

theorem depsBefore_nil (g : List (String × List String)) : DepsBefore g [] := by
  intro k hk
  simp at hk

theorem depsBefore_append {g : List (String × List String)} {l : List String}
    {n : String} (h1 : DepsBefore g l) (h2 : ∀ d ∈ depsOf g n, d ∈ l) :
    DepsBefore g (l ++ [n]) := by
  intro k hk d hd
  have hlen : (l ++ [n]).length = l.length + 1 := by simp
  by_cases hkl : k < l.length
  · have hget : (l ++ [n]).get ⟨k, hk⟩ = l.get ⟨k, hkl⟩ := by
      rw [List.get_eq_getElem, List.get_eq_getElem]
      exact List.getElem_append_left hkl
    rw [hget] at hd
    have := h1 k hkl d hd
    rw [List.take_append_eq_append_take]
    exact List.mem_append_left _ (by simpa [Nat.le_of_lt hkl] using this)
  · have hk1 : k = l.length := by omega
    subst hk1
    have hget : (l ++ [n]).get ⟨l.length, hk⟩ = n := by
      simp [List.get_eq_getElem]
    rw [hget] at hd
    rw [List.take_append_eq_append_take]
    simp only [List.take_length, Nat.sub_self, List.take_zero, List.append_nil]
    exact h2 d hd

theorem kahnLoop_ok_props (g : List (String × List String)) :
    ∀ (r e : List String), ∀ o, kahnLoop g e r = .ok o →
      (∃ ext, o = e ++ ext) ∧
      (∀ x, x ∈ o ↔ (x ∈ e ∨ x ∈ r)) ∧
      (e.Nodup → r.Nodup → (∀ x ∈ e, x ∉ r) → o.Nodup) ∧
      (DepsBefore g e → DepsBefore g o) := by
  apply kahn_rec g (fun e r => ∀ o, kahnLoop g e r = .ok o →
      (∃ ext, o = e ++ ext) ∧
      (∀ x, x ∈ o ↔ (x ∈ e ∨ x ∈ r)) ∧
      (e.Nodup → r.Nodup → (∀ x ∈ e, x ∉ r) → o.Nodup) ∧
      (DepsBefore g e → DepsBefore g o))
  · intro e r hp o hok
    rw [kahnLoop_eq_none hp] at hok
    by_cases hr : r.isEmpty
    · rw [if_pos hr] at hok
      cases hok
      have hrnil : r = [] := List.isEmpty_iff.mp hr
      subst hrnil
      refine ⟨⟨[], by simp⟩, ?_, ?_, ?_⟩
      · intro x; simp
      · intro h1 _ _; exact h1
      · intro h; exact h
    · rw [if_neg hr] at hok
      cases hok
  · intro e r n hp ih o hok
    rw [kahnLoop_eq_some hp] at hok
    obtain ⟨⟨ext, hext⟩, hmem, hnd, hdb⟩ := ih o hok
    have hnr : n ∈ r := pickReady_mem hp
    refine ⟨⟨n :: ext, by simpa using hext⟩, ?_, ?_, ?_⟩
    · intro x
      rw [hmem x]
      constructor
      · rintro (hx | hx)
        · rcases List.mem_append.mp hx with hx | hx
          · exact Or.inl hx
          · simp at hx
            subst hx
            exact Or.inr hnr
        · exact Or.inr (List.mem_of_mem_erase hx)
      · rintro (hx | hx)
        · exact Or.inl (List.mem_append_left _ hx)
        · by_cases hxn : x = n
          · subst hxn
            exact Or.inl (by simp)
          · exact Or.inr ((List.mem_erase_of_ne hxn).mpr hx)
    · intro hend hrnd hdisj
      apply hnd
      · refine List.nodup_append.mpr ⟨hend, by simp, ?_⟩
        intro x hx
        simp only [List.mem_singleton]
        rintro rfl
        exact hdisj x hx hnr
      · exact hrnd.erase n
      · intro x hx
        rcases List.mem_append.mp hx with hx | hx
        · intro hc
          exact hdisj x hx (List.mem_of_mem_erase hc)
        · simp at hx
          subst hx
          intro hc
          exact ((hrnd.mem_erase_iff).mp hc).1 rfl
    · intro hde
      exact hdb (depsBefore_append hde (pickReady_sat hp))

theorem kahnLoop_cycle (g : List (String × List String)) {a b : String}
    (hab : a ≠ b) (hba : b ∈ depsOf g a) (hab2 : a ∈ depsOf g b) :
    ∀ (r e : List String), a ∈ r → b ∈ r → a ∉ e → b ∉ e →
      kahnLoop g e r = .error .cycle := by
  apply kahn_rec g (fun e r => a ∈ r → b ∈ r → a ∉ e → b ∉ e →
      kahnLoop g e r = .error .cycle)
  · intro e r hp har hbr hae hbe
    rw [kahnLoop_eq_none hp]
    have : r.isEmpty = false := by
      cases r with
      | nil => cases har
      | cons x xs => rfl
    rw [this]
    rfl
  · intro e r n hp ih har hbr hae hbe
    rw [kahnLoop_eq_some hp]
    have hna : n ≠ a := by
      rintro rfl
      exact hbe (pickReady_sat hp b hba)
    have hnb : n ≠ b := by
      rintro rfl
      exact hae (pickReady_sat hp a hab2)
    apply ih
    · exact (List.mem_erase_of_ne (fun h => hna h.symm)).mpr har
    · exact (List.mem_erase_of_ne (fun h => hnb h.symm)).mpr hbr
    · intro hc
      rcases List.mem_append.mp hc with hc | hc
      · exact hae hc
      · simp at hc
        exact hna hc.symm
    · intro hc
      rcases List.mem_append.mp hc with hc | hc
      · exact hbe hc
      · simp at hc
        exact hnb hc.symm

theorem dedupGo_mem : ∀ (l seen : List String) (x : String),
    x ∈ dedupGo seen l ↔ (x ∈ l ∧ x ∉ seen) := by
  intro l
  induction l with
  | nil => intro seen x; simp [dedupGo]
  | cons y ys ih =>
    intro seen x
    simp only [dedupGo]
    split
    · rename_i hy
      rw [ih]
      constructor
      · rintro ⟨h1, h2⟩
        exact ⟨List.mem_cons_of_mem _ h1, h2⟩
      · rintro ⟨h1, h2⟩
        rcases List.mem_cons.mp h1 with rfl | h1'
        · exact absurd hy h2
        · exact ⟨h1', h2⟩
    · rename_i hy
      by_cases hxy : x = y
      · subst hxy
        simp [hy]
      · simp only [List.mem_cons, hxy, false_or, ih]

theorem dedupGo_nodup : ∀ (l seen : List String), (dedupGo seen l).Nodup := by
  intro l
  induction l with
  | nil => intro seen; simp [dedupGo]
  | cons y ys ih =>
    intro seen
    simp only [dedupGo]
    split
    · exact ih seen
    · refine List.nodup_cons.mpr ⟨?_, ih (y :: seen)⟩
      intro hc
      exact ((dedupGo_mem _ _ _).mp hc).2 (List.mem_cons_self _ _)

theorem dedupFirst_mem (l : List String) (x : String) :
    x ∈ dedupFirst l ↔ x ∈ l := by
  unfold dedupFirst
  rw [dedupGo_mem]
  simp

theorem dedupFirst_nodup (l : List String) : (dedupFirst l).Nodup :=
  dedupGo_nodup l []

/-- Successful topological sort: the output contains exactly the graph's
nodes, has no duplicates, and respects dependency order. -/
theorem topoSort_ok_props {g : List (String × List String)} {o : List String}
    (h : topoSort g = .ok o) :
    (∀ x, x ∈ o ↔ x ∈ sorterNodes g) ∧ o.Nodup ∧ DepsBefore g o := by
  obtain ⟨_, hmem, hnd, hdb⟩ := kahnLoop_ok_props g (sorterNodes g) [] o h
  refine ⟨fun x => by simpa using hmem x, ?_, hdb (depsBefore_nil g)⟩
  exact hnd List.nodup_nil (dedupFirst_nodup _) (by intro x hx; cases hx)

/-- A cyclic pair of nodes makes the topological sort fail with the cycle
error, as `graphlib.TopologicalSorter.static_order` raises `CycleError`. -/
theorem topoSort_cycle {g : List (String × List String)} {a b : String}
    (hab : a ≠ b) (hba : b ∈ depsOf g a) (hab2 : a ∈ depsOf g b)
    (ha : a ∈ sorterNodes g) (hb : b ∈ sorterNodes g) :
    topoSort g = .error .cycle :=
  kahnLoop_cycle g hab hba hab2 (sorterNodes g) [] ha hb
    (by intro h; cases h) (by intro h; cases h)

end Topo

namespace OldCoords

/-- The producer part of one entry of a conversion-graph dict (a
`GraphDict` value in `coords.py`): a string value is a rename; a callable
is a compute rule whose dependencies are the callable's declared argument
names (`_argnames`). -/
inductive Producer where
  | rename (src : String)
  | compute (argNames : List String)
  deriving DecidableEq, Repr

/-- One entry of the user-supplied graph dict: the declared output names
(the dict key, a name or a tuple of names) and the producer (the dict
value). -/
structure GEntry where
  products : List String
  producer : Producer
  deriving DecidableEq, Repr

/-- Dependencies of a rule: `_RenameRule.dependencies` is the single source
name, `_ComputeRule.dependencies` the argument names. -/
def producerDeps : Producer → List String
  | .rename s => [s]
  | .compute args => args

/-- Error raised by `_convert_to_rule_graph` for a duplicate output name
(`ValueError`). -/
inductive GraphErr where
  | duplicateOutput (name : String)
  deriving DecidableEq, Repr

/-- Inner loop of `_convert_to_rule_graph` for one entry: insert each
product into the rule graph, failing if the name is already a key.  A rule
is identified by the index of the graph-dict entry that created it
(mirroring Python object identity of the `_Rule` built per entry). -/
def addProducts (ruleGraph : List (String × Nat)) (idx : Nat) :
    List String → Except GraphErr (List (String × Nat))
  | [] => .ok ruleGraph
  | p :: ps =>
    if (ruleGraph.lookup p).isSome then .error (.duplicateOutput p)
    else addProducts (ruleGraph ++ [(p, idx)]) idx ps

/-- Loop of `_convert_to_rule_graph` over all graph-dict entries. -/
def convertGo (ruleGraph : List (String × Nat)) (idx : Nat) :
    List GEntry → Except GraphErr (List (String × Nat))
  | [] => .ok ruleGraph
  | e :: es =>
    match addProducts ruleGraph idx e.products with
    | .error err => .error err
    | .ok rg => convertGo rg (idx + 1) es

/-- Embedding of `_convert_to_rule_graph`: build the mapping from output
name to producing rule. -/
def convertToRuleGraph (entries : List GEntry) :
    Except GraphErr (List (String × Nat)) :=
  convertGo [] 0 entries

/-- A rule of a subgraph: either a `_FetchRule` synthesized on demand for a
name already present on the input data, or the `_Rule` of graph-dict entry
`idx`. -/
inductive SRule where
  | fetch (out : String)
  | entry (idx : Nat)
  deriving DecidableEq, Repr

/-- `rule.dependencies`: a fetch rule has none; an entry rule has the
dependencies of its producer. -/
def sruleDeps (entries : List GEntry) : SRule → List String
  | .fetch _ => []
  | .entry i => ((entries[i]?).map (fun e => producerDeps e.producer)).getD []

/-- `rule.out_names`: a fetch rule outputs its single name; an entry rule
outputs its entry's products. -/
def sruleOuts (entries : List GEntry) : SRule → List String
  | .fetch o => [o]
  | .entry i => ((entries[i]?).map (fun e => e.products)).getD []

/-- The parts of a `DataArray` that `_is_meta_data` inspects: the names in
`data.meta` and, when the data is binned, the names in `data.bins.meta`. -/
structure MetaData where
  meta : List String
  binsMeta : Option (List String)

/-- Embedding of `_is_meta_data`. -/
def isMetaData (name : String) (data : MetaData) : Bool :=
  decide (name ∈ data.meta) ||
    (match data.binsMeta with
     | some bm => decide (name ∈ bm)
     | none => false)

/-- `CoordError` raised by `Graph._rule_for` when a name has neither a
pre-existing value nor a producing rule. -/
inductive CoordErr where
  | notFound (name : String)
  deriving DecidableEq, Repr

/-- Embedding of `Graph._rule_for`: prefer a synthesized fetch rule for
pre-existing meta data, else the graph rule, else `CoordError`. -/
def ruleFor (ruleGraph : List (String × Nat)) (data : MetaData)
    (name : String) : Except CoordErr SRule :=
  if isMetaData name data then .ok (.fetch name)
  else
    match ruleGraph.lookup name with
    | some i => .ok (.entry i)
    | none => .error (.notFound name)

/-- Worklist loop of `Graph.subgraph`.  `pending` is kept reversed relative
to the Python list, so that `pending.pop()` is the head and
`pending.extend(rule.dependencies)` prepends the reversed dependencies.
`fuel` bounds the number of iterations (the source loop terminates because
the name space is finite); `none` means the fuel ran out. -/
def buildSub (entries : List GEntry) (ruleGraph : List (String × Nat))
    (data : MetaData) :
    Nat → List (String × SRule) → List String →
      Option (Except CoordErr (List (String × SRule)))
  | 0, _, _ => none
  | _ + 1, sub, [] => some (.ok sub)
  | fuel + 1, sub, out :: pending =>
    if (sub.lookup out).isSome then
      buildSub entries ruleGraph data fuel sub pending
    else
      match ruleFor ruleGraph data out with
      | .error e => some (.error e)
      | .ok r =>
        buildSub entries ruleGraph data fuel (sub ++ [(out, r)])
          ((sruleDeps entries r).reverse ++ pending)

/-- Embedding of `Graph.subgraph`. -/
def subgraph (entries : List GEntry) (ruleGraph : List (String × Nat))
    (data : MetaData) (targets : List String) (fuel : Nat) :
    Option (Except CoordErr (List (String × SRule))) :=
  buildSub entries ruleGraph data fuel [] targets.reverse

/-- The dependency graph handed to `_sort_topologically`:
`{out: rule.dependencies for out, rule in graph.items()}`. -/
def subToSorter (entries : List GEntry) (sub : List (String × SRule)) :
    List (String × List String) :=
  sub.map (fun p => (p.1, sruleDeps entries p.2))

/-- Errors of `_non_duplicate_rules`: the `CycleError` from the topological
sorter, or a `KeyError` for a name without a rule (unreachable for closed
subgraphs). -/
inductive SeqErr where
  | cycle
  | missingRule (name : String)
  deriving DecidableEq, Repr

/-- Loop of `_non_duplicate_rules`: map each name of the topological order
to its rule and keep only the first occurrence of each rule (the
`already_used` set; Python object identity). -/
def nonDupGo (sub : List (String × SRule)) (acc : List SRule) :
    List String → Except SeqErr (List SRule)
  | [] => .ok acc
  | n :: ns =>
    match sub.lookup n with
    | none => .error (.missingRule n)
    | some r => nonDupGo sub (if r ∈ acc then acc else acc ++ [r]) ns

/-- Embedding of `_non_duplicate_rules`. -/
def nonDupRules (entries : List GEntry) (sub : List (String × SRule)) :
    Except SeqErr (List SRule) :=
  match Topo.topoSort (subToSorter entries sub) with
  | .error _ => .error .cycle
  | .ok order => nonDupGo sub [] order

end OldCoords

theorem lookup_isSome_iff {β : Type} {l : List (String × β)} {k : String} :
    (l.lookup k).isSome ↔ k ∈ l.map Prod.fst := by
  induction l with
  | nil => simp [List.lookup]
  | cons p ps ih =>
    obtain ⟨a, b⟩ := p
    by_cases hk : k = a
    · subst hk
      simp [List.lookup]
    · have hba : (k == a) = false := beq_eq_false_iff_ne.mpr hk
      simp [List.lookup, hba, ih, hk]

theorem lookup_mem {β : Type} {l : List (String × β)} {k : String} {v : β} :
    l.lookup k = some v → (k, v) ∈ l := by
  induction l with
  | nil => intro h; simp [List.lookup] at h
  | cons p ps ih =>
    obtain ⟨a, b⟩ := p
    intro h
    by_cases hk : k = a
    · subst hk
      simp only [List.lookup, beq_self_eq_true] at h
      cases h
      exact List.mem_cons_self _ _
    · have hba : (k == a) = false := beq_eq_false_iff_ne.mpr hk
      simp only [List.lookup, hba] at h
      exact List.mem_cons_of_mem _ (ih h)

theorem lookup_map_pair {β γ : Type} (f : β → γ) (l : List (String × β))
    (k : String) :
    ((l.map (fun p => (p.1, f p.2))).lookup k) = (l.lookup k).map f := by
  induction l with
  | nil => simp [List.lookup]
  | cons p ps ih =>
    obtain ⟨a, b⟩ := p
    by_cases hk : k = a
    · subst hk
      simp [List.lookup]
    · have hba : (k == a) = false := beq_eq_false_iff_ne.mpr hk
      simp [List.lookup, hba, ih]

namespace OldCoords

theorem addProducts_ok_keys :
    ∀ (ps : List String) (rg : List (String × Nat)) (idx : Nat)
      (rg' : List (String × Nat)), addProducts rg idx ps = .ok rg' →
      rg'.map Prod.fst = rg.map Prod.fst ++ ps := by
  intro ps
  induction ps with
  | nil =>
    intro rg idx rg' h
    cases h
    simp
  | cons p ps ih =>
    intro rg idx rg' h
    simp only [addProducts] at h
    split at h
    · cases h
    · have := ih _ _ _ h
      simpa using this

theorem addProducts_ok_mem :
    ∀ (ps : List String) (rg : List (String × Nat)) (idx : Nat)
      (rg' : List (String × Nat)), addProducts rg idx ps = .ok rg' →
      ∀ q ∈ rg', q ∈ rg ∨ (q.2 = idx ∧ q.1 ∈ ps) := by
  intro ps
  induction ps with
  | nil =>
    intro rg idx rg' h
    cases h
    intro q hq
    exact Or.inl hq
  | cons p ps ih =>
    intro rg idx rg' h
    simp only [addProducts] at h
    split at h
    · cases h
    · intro q hq
      rcases ih _ _ _ h q hq with hq' | hq'
      · rcases List.mem_append.mp hq' with hq'' | hq''
        · exact Or.inl hq''
        · simp at hq''
          subst hq''
          exact Or.inr ⟨rfl, by simp⟩
      · exact Or.inr ⟨hq'.1, List.mem_cons_of_mem _ hq'.2⟩

theorem addProducts_ok_nodup :
    ∀ (ps : List String) (rg : List (String × Nat)) (idx : Nat)
      (rg' : List (String × Nat)), addProducts rg idx ps = .ok rg' →
      (rg.map Prod.fst).Nodup → (rg'.map Prod.fst).Nodup := by
  intro ps
  induction ps with
  | nil =>
    intro rg idx rg' h hnd
    cases h
    exact hnd
  | cons p ps ih =>
    intro rg idx rg' h hnd
    simp only [addProducts] at h
    split at h
    · cases h
    · rename_i hns
      refine ih _ _ _ h ?_
      have hp : p ∉ rg.map Prod.fst := by
        intro hc
        exact hns (lookup_isSome_iff.mpr hc)
      simpa using List.Nodup.append hnd (by simp) (by
        intro x hx
        simp only [List.mem_singleton]
        rintro rfl
        exact hp hx)

theorem convertGo_ok_keys :
    ∀ (es : List GEntry) (rg : List (String × Nat)) (idx : Nat)
      (rg' : List (String × Nat)), convertGo rg idx es = .ok rg' →
      rg'.map Prod.fst = rg.map Prod.fst ++ (es.map GEntry.products).flatten := by
  intro es
  induction es with
  | nil =>
    intro rg idx rg' h
    cases h
    simp
  | cons e es ih =>
    intro rg idx rg' h
    simp only [convertGo] at h
    split at h
    · cases h
    · rename_i rg1 hadd
      have h1 := addProducts_ok_keys _ _ _ _ hadd
      have h2 := ih _ _ _ h
      rw [h2, h1]
      simp

theorem convertGo_ok_nodup :
    ∀ (es : List GEntry) (rg : List (String × Nat)) (idx : Nat)
      (rg' : List (String × Nat)), convertGo rg idx es = .ok rg' →
      (rg.map Prod.fst).Nodup → (rg'.map Prod.fst).Nodup := by
  intro es
  induction es with
  | nil =>
    intro rg idx rg' h hnd
    cases h
    exact hnd
  | cons e es ih =>
    intro rg idx rg' h hnd
    simp only [convertGo] at h
    split at h
    · cases h
    · rename_i rg1 hadd
      exact ih _ _ _ h (addProducts_ok_nodup _ _ _ _ hadd hnd)

theorem convertGo_ok_mem :
    ∀ (es : List GEntry) (rg : List (String × Nat)) (idx : Nat)
      (rg' : List (String × Nat)), convertGo rg idx es = .ok rg' →
      ∀ q ∈ rg', q ∈ rg ∨
        ∃ (k : Nat) (hk : k < es.length),
          q.2 = idx + k ∧ q.1 ∈ (es.get ⟨k, hk⟩).products := by
  intro es
  induction es with
  | nil =>
    intro rg idx rg' h
    cases h
    intro q hq
    exact Or.inl hq
  | cons e es ih =>
    intro rg idx rg' h
    simp only [convertGo] at h
    split at h
    · cases h
    · rename_i rg1 hadd
      intro q hq
      rcases ih _ _ _ h q hq with hq' | hq'
      · rcases addProducts_ok_mem _ _ _ _ hadd q hq' with hq'' | hq''
        · exact Or.inl hq''
        · refine Or.inr ⟨0, by simp, by simpa using hq''.1, by simpa using hq''.2⟩
      · obtain ⟨k, hk, hq1, hq2⟩ := hq'
        refine Or.inr ⟨k + 1, by simpa using hk, by omega, by simpa using hq2⟩

/-- Membership characterization of a successfully constructed rule graph:
every key points at an entry that declares it as a product. -/
theorem convert_ok_mem {entries : List GEntry} {rg : List (String × Nat)}
    (h : convertToRuleGraph entries = .ok rg) :
    ∀ q ∈ rg, ∃ (hk : q.2 < entries.length),
      q.1 ∈ (entries.get ⟨q.2, hk⟩).products := by
  intro q hq
  rcases convertGo_ok_mem entries [] 0 rg h q hq with hc | ⟨k, hk, h1, h2⟩
  · cases hc
  · simp only [Nat.zero_add] at h1
    subst h1
    exact ⟨hk, h2⟩

theorem buildSub_ok_mono {entries : List GEntry} {rg : List (String × Nat)}
    {data : MetaData} :
    ∀ (fuel : Nat) (sub : List (String × SRule)) (pending : List String)
      (res : List (String × SRule)),
      buildSub entries rg data fuel sub pending = some (.ok res) →
      ∃ ext, res = sub ++ ext := by
  intro fuel
  induction fuel with
  | zero => intro sub pending res h; cases h
  | succ fuel ih =>
    intro sub pending res h
    cases pending with
    | nil =>
      cases h
      exact ⟨[], by simp⟩
    | cons out rest =>
      simp only [buildSub] at h
      split at h
      · exact ih _ _ _ h
      · split at h
        · cases h
        · obtain ⟨ext, hext⟩ := ih _ _ _ h
          exact ⟨_, by rw [hext, List.append_assoc]⟩

theorem buildSub_ok_pairs {entries : List GEntry} {rg : List (String × Nat)}
    {data : MetaData} :
    ∀ (fuel : Nat) (sub : List (String × SRule)) (pending : List String)
      (res : List (String × SRule)),
      buildSub entries rg data fuel sub pending = some (.ok res) →
      (∀ q ∈ sub, ruleFor rg data q.1 = .ok q.2) →
      ∀ q ∈ res, ruleFor rg data q.1 = .ok q.2 := by
  intro fuel
  induction fuel with
  | zero => intro sub pending res h; cases h
  | succ fuel ih =>
    intro sub pending res h hinv
    cases pending with
    | nil =>
      cases h
      exact hinv
    | cons out rest =>
      simp only [buildSub] at h
      split at h
      · exact ih _ _ _ h hinv
      · split at h
        · cases h
        · rename_i r hrf
          refine ih _ _ _ h ?_
          intro q hq
          rcases List.mem_append.mp hq with hq' | hq'
          · exact hinv q hq'
          · simp at hq'
            subst hq'
            exact hrf

theorem buildSub_ok_closed {entries : List GEntry} {rg : List (String × Nat)}
    {data : MetaData} :
    ∀ (fuel : Nat) (sub : List (String × SRule)) (pending : List String)
      (res : List (String × SRule)),
      buildSub entries rg data fuel sub pending = some (.ok res) →
      (∀ q ∈ sub, ∀ d ∈ sruleDeps entries q.2,
        d ∈ sub.map Prod.fst ∨ d ∈ pending) →
      ∀ q ∈ res, ∀ d ∈ sruleDeps entries q.2, d ∈ res.map Prod.fst := by
  intro fuel
  induction fuel with
  | zero => intro sub pending res h; cases h
  | succ fuel ih =>
    intro sub pending res h hinv
    cases pending with
    | nil =>
      cases h
      intro q hq d hd
      rcases hinv q hq d hd with hc | hc
      · exact hc
      · cases hc
    | cons out rest =>
      simp only [buildSub] at h
      split at h
      · rename_i hlk
        refine ih _ _ _ h ?_
        intro q hq d hd
        rcases hinv q hq d hd with hc | hc
        · exact Or.inl hc
        · rcases List.mem_cons.mp hc with hc' | hc'
          · subst hc'
            exact Or.inl (lookup_isSome_iff.mp hlk)
          · exact Or.inr hc'
      · split at h
        · cases h
        · rename_i r hrf
          refine ih _ _ _ h ?_
          intro q hq d hd
          rcases List.mem_append.mp hq with hq' | hq'
          · rcases hinv q hq' d hd with hc | hc
            · refine Or.inl ?_
              simp only [List.map_append]
              exact List.mem_append_left _ hc
            · rcases List.mem_cons.mp hc with hc' | hc'
              · subst hc'
                refine Or.inl ?_
                simp
              · exact Or.inr (List.mem_append_right _ hc')
          · simp at hq'
            subst hq'
            exact Or.inr (List.mem_append_left _ (List.mem_reverse.mpr hd))

theorem buildSub_ok_pending {entries : List GEntry} {rg : List (String × Nat)}
    {data : MetaData} :
    ∀ (fuel : Nat) (sub : List (String × SRule)) (pending : List String)
      (res : List (String × SRule)),
      buildSub entries rg data fuel sub pending = some (.ok res) →
      ∀ x ∈ pending, x ∈ res.map Prod.fst := by
  intro fuel
  induction fuel with
  | zero => intro sub pending res h; cases h
  | succ fuel ih =>
    intro sub pending res h
    cases pending with
    | nil => intro x hx; cases hx
    | cons out rest =>
      simp only [buildSub] at h
      split at h
      · rename_i hlk
        intro x hx
        rcases List.mem_cons.mp hx with hx' | hx'
        · subst hx'
          obtain ⟨ext, hext⟩ := buildSub_ok_mono _ _ _ _ h
          rw [hext]
          simp only [List.map_append]
          exact List.mem_append_left _ (lookup_isSome_iff.mp hlk)
        · exact ih _ _ _ h x hx'
      · split at h
        · cases h
        · rename_i r hrf
          intro x hx
          rcases List.mem_cons.mp hx with hx' | hx'
          · subst hx'
            obtain ⟨ext, hext⟩ := buildSub_ok_mono _ _ _ _ h
            rw [hext]
            simp
          · exact ih _ _ _ h x (List.mem_append_right _ hx')

theorem ruleFor_out {entries : List GEntry} {rg : List (String × Nat)}
    (hconv : convertToRuleGraph entries = .ok rg) {data : MetaData}
    {n : String} {r : SRule} (h : ruleFor rg data n = .ok r) :
    n ∈ sruleOuts entries r := by
  unfold ruleFor at h
  split at h
  · cases h
    simp [sruleOuts]
  · split at h
    · rename_i i hlk
      cases h
      obtain ⟨hk, hmem⟩ := convert_ok_mem hconv _ (lookup_mem hlk)
      simp only [sruleOuts]
      rw [List.getElem?_eq_getElem hk]
      simpa using hmem
    · cases h

theorem ruleFor_entry_of_not_meta {rg : List (String × Nat)} {data : MetaData}
    {n : String} {r : SRule} (hm : isMetaData n data = false)
    (h : ruleFor rg data n = .ok r) :
    ∃ i, r = .entry i ∧ rg.lookup n = some i := by
  unfold ruleFor at h
  rw [hm] at h
  simp only [Bool.false_eq_true, if_false] at h
  split at h
  · rename_i i hlk
    cases h
    exact ⟨i, rfl, hlk⟩
  · cases h

theorem subToSorter_keys (entries : List GEntry)
    (sub : List (String × SRule)) :
    (subToSorter entries sub).map Prod.fst = sub.map Prod.fst := by
  simp [subToSorter]

theorem subToSorter_depsOf {entries : List GEntry}
    {sub : List (String × SRule)} {n : String} {r : SRule}
    (h : sub.lookup n = some r) :
    Topo.depsOf (subToSorter entries sub) n = sruleDeps entries r := by
  unfold Topo.depsOf subToSorter
  rw [lookup_map_pair, h]
  rfl

theorem sorterNodes_sub_keys {entries : List GEntry}
    {sub : List (String × SRule)}
    (hclosed : ∀ q ∈ sub, ∀ d ∈ sruleDeps entries q.2, d ∈ sub.map Prod.fst) :
    ∀ x ∈ Topo.sorterNodes (subToSorter entries sub), x ∈ sub.map Prod.fst := by
  intro x hx
  have hx' := (Topo.dedupFirst_mem _ x).mp hx
  rcases List.mem_append.mp hx' with hx'' | hx''
  · rw [subToSorter_keys] at hx''
    exact hx''
  · obtain ⟨l, hl, hxl⟩ := List.mem_flatten.mp hx''
    obtain ⟨p, hp, hpl⟩ := List.mem_map.mp hl
    obtain ⟨q, hq, hqp⟩ := List.mem_map.mp hp
    subst hpl
    subst hqp
    exact hclosed q hq x hxl

/-- A rule list respects dependency order: every rule's dependencies appear
as outputs of rules strictly earlier in the list. -/
def RulesOrdered (entries : List GEntry) (l : List SRule) : Prop :=
  ∀ (k : Nat) (hk : k < l.length), ∀ d ∈ sruleDeps entries (l.get ⟨k, hk⟩),
    ∃ r' ∈ l.take k, d ∈ sruleOuts entries r'

theorem rulesOrdered_nil (entries : List GEntry) : RulesOrdered entries [] := by
  intro k hk
  simp at hk

theorem rulesOrdered_append {entries : List GEntry} {l : List SRule}
    {r : SRule} (h1 : RulesOrdered entries l)
    (h2 : ∀ d ∈ sruleDeps entries r, ∃ r' ∈ l, d ∈ sruleOuts entries r') :
    RulesOrdered entries (l ++ [r]) := by
  intro k hk d hd
  by_cases hkl : k < l.length
  · have hget : (l ++ [r]).get ⟨k, hk⟩ = l.get ⟨k, hkl⟩ := by
      rw [List.get_eq_getElem, List.get_eq_getElem]
      exact List.getElem_append_left hkl
    rw [hget] at hd
    obtain ⟨r', hr', hr'o⟩ := h1 k hkl d hd
    refine ⟨r', ?_, hr'o⟩
    rw [List.take_append_eq_append_take]
    exact List.mem_append_left _ (by simpa [Nat.le_of_lt hkl] using hr')
  · have hkk : k = l.length := by
      have := hk
      simp only [List.length_append, List.length_cons, List.length_nil] at this
      omega
    subst hkk
    have hget : (l ++ [r]).get ⟨l.length, hk⟩ = r := by
      simp [List.get_eq_getElem]
    rw [hget] at hd
    obtain ⟨r', hr', hr'o⟩ := h2 d hd
    refine ⟨r', ?_, hr'o⟩
    rw [List.take_append_eq_append_take]
    simp only [List.take_length, Nat.sub_self, List.take_zero, List.append_nil]
    exact hr'

theorem nonDupGo_ok {sub : List (String × SRule)} :
    ∀ (names : List String) (acc : List SRule),
      (∀ n ∈ names, (sub.lookup n).isSome) →
      ∃ res, nonDupGo sub acc names = .ok res := by
  intro names
  induction names with
  | nil => intro acc _; exact ⟨acc, rfl⟩
  | cons n ns ih =>
    intro acc hlk
    have hn := hlk n (List.mem_cons_self _ _)
    obtain ⟨r, hr⟩ := Option.isSome_iff_exists.mp hn
    obtain ⟨res, hres⟩ := ih (if r ∈ acc then acc else acc ++ [r])
      (fun m hm => hlk m (List.mem_cons_of_mem _ hm))
    refine ⟨res, ?_⟩
    simp only [nonDupGo, hr]
    exact hres

theorem nonDupGo_nodup {sub : List (String × SRule)} :
    ∀ (names : List String) (acc res : List SRule),
      nonDupGo sub acc names = .ok res → acc.Nodup → res.Nodup := by
  intro names
  induction names with
  | nil =>
    intro acc res h hnd
    cases h
    exact hnd
  | cons n ns ih =>
    intro acc res h hnd
    simp only [nonDupGo] at h
    split at h
    · cases h
    · rename_i r hr
      refine ih _ _ h ?_
      split
      · exact hnd
      · rename_i hra
        refine List.Nodup.append hnd (by simp) ?_
        intro x hx
        simp only [List.mem_singleton]
        rintro rfl
        exact hra hx

theorem nonDupGo_ordered {entries : List GEntry} {sub : List (String × SRule)}
    (H4 : ∀ (n : String) (r : SRule), sub.lookup n = some r →
      n ∈ sruleOuts entries r) :
    ∀ (names seen : List String) (acc res : List SRule),
      (∀ (k : Nat) (hk : k < names.length),
        ∀ d ∈ Topo.depsOf (subToSorter entries sub) (names.get ⟨k, hk⟩),
          d ∈ seen ++ names.take k) →
      (∀ d ∈ seen, ∃ r' ∈ acc, sub.lookup d = some r') →
      RulesOrdered entries acc →
      nonDupGo sub acc names = .ok res → RulesOrdered entries res := by
  intro names
  induction names with
  | nil =>
    intro seen acc res _ _ H3 h
    cases h
    exact H3
  | cons n ns ih =>
    intro seen acc res H1 H2 H3 h
    simp only [nonDupGo] at h
    split at h
    · cases h
    · rename_i r hr
      have hdeps : ∀ d ∈ sruleDeps entries r, d ∈ seen := by
        intro d hd
        have h0 := H1 0 (by simp) d (by
          rw [show ((n :: ns).get ⟨0, by simp⟩) = n from rfl,
            subToSorter_depsOf hr]
          exact hd)
        simpa using h0
      have H1' : ∀ (k : Nat) (hk : k < ns.length),
          ∀ d ∈ Topo.depsOf (subToSorter entries sub) (ns.get ⟨k, hk⟩),
            d ∈ (seen ++ [n]) ++ ns.take k := by
        intro k hk d hd
        have hk1 : k + 1 < (n :: ns).length := by simpa using Nat.succ_lt_succ hk
        have := H1 (k + 1) hk1 d (by
          rw [show ((n :: ns).get ⟨k + 1, hk1⟩) = ns.get ⟨k, hk⟩ from rfl]
          exact hd)
        simp only [List.take_succ_cons] at this
        simp only [List.append_assoc, List.singleton_append]
        exact this
      by_cases hra : r ∈ acc
      · rw [if_pos hra] at h
        refine ih (seen ++ [n]) acc res H1' ?_ H3 h
        intro d hd
        rcases List.mem_append.mp hd with hd' | hd'
        · exact H2 d hd'
        · simp at hd'
          subst hd'
          exact ⟨r, hra, hr⟩
      · rw [if_neg hra] at h
        refine ih (seen ++ [n]) (acc ++ [r]) res H1' ?_ ?_ h
        · intro d hd
          rcases List.mem_append.mp hd with hd' | hd'
          · obtain ⟨r', hr', hlk⟩ := H2 d hd'
            exact ⟨r', List.mem_append_left _ hr', hlk⟩
          · simp at hd'
            subst hd'
            exact ⟨r, by simp, hr⟩
        · refine rulesOrdered_append H3 ?_
          intro d hd
          obtain ⟨r', hr', hlk⟩ := H2 d (hdeps d hd)
          exact ⟨r', hr', H4 d r' hlk⟩

end OldCoords

/-- C9: For every graph dict in which two entries declare the same output
coordinate name, constructing the `Graph` raises an error at construction
time (`_convert_to_rule_graph` raises `ValueError` for a duplicate output
name), so in every successfully constructed rule graph each name is
produced by exactly one rule: the keys of the rule graph are distinct. -/
theorem duplicate_output_rejected :
    (∀ (entries : List OldCoords.GEntry) (i j : Nat)
        (hi : i < entries.length) (hj : j < entries.length) (p : String),
        i ≠ j → p ∈ (entries.get ⟨i, hi⟩).products →
        p ∈ (entries.get ⟨j, hj⟩).products →
        ∃ q, OldCoords.convertToRuleGraph entries =
          .error (.duplicateOutput q)) ∧
    (∀ (entries : List OldCoords.GEntry) (rg : List (String × Nat)),
        OldCoords.convertToRuleGraph entries = .ok rg →
        (rg.map Prod.fst).Nodup) := by
  have part2 : ∀ (entries : List OldCoords.GEntry) (rg : List (String × Nat)),
      OldCoords.convertToRuleGraph entries = .ok rg →
      (rg.map Prod.fst).Nodup := by
    intro entries rg h
    exact OldCoords.convertGo_ok_nodup entries [] 0 rg h (by simp)
  refine ⟨?_, part2⟩
  intro entries i j hi hj p hij hpi hpj
  cases hres : OldCoords.convertToRuleGraph entries with
  | error e =>
    cases e with
    | duplicateOutput q => exact ⟨q, rfl⟩
  | ok rg =>
    exfalso
    have hkeys := OldCoords.convertGo_ok_keys entries [] 0 rg hres
    simp only [List.map_nil, List.nil_append] at hkeys
    have hnd : ((entries.map OldCoords.GEntry.products).flatten).Nodup := by
      rw [← hkeys]
      exact part2 entries rg hres
    have hpair := (List.nodup_flatten.mp hnd).2
    have hgl : ∀ (k : Nat) (hk : k < entries.length),
        (entries.map OldCoords.GEntry.products).get
          ⟨k, by simpa using hk⟩ = (entries.get ⟨k, hk⟩).products := by
      intro k hk
      simp
    rcases Nat.lt_or_ge i j with hlt | hge
    · have := (List.pairwise_iff_get.mp hpair)
        ⟨i, by simpa using hi⟩ ⟨j, by simpa using hj⟩ hlt
      rw [hgl i hi, hgl j hj] at this
      exact this hpi hpj
    · have hlt : j < i := by omega
      have := (List.pairwise_iff_get.mp hpair)
        ⟨j, by simpa using hj⟩ ⟨i, by simpa using hi⟩ hlt
      rw [hgl i hi, hgl j hj] at this
      exact this hpj hpi

/-- Witness for `duplicate_output_rejected`: a concrete two-entry graph dict
declaring `x` twice is rejected with a duplicate-output error. -/
theorem duplicate_output_rejected_witness :
    ∃ q, OldCoords.convertToRuleGraph
      [⟨["x"], .rename "a"⟩, ⟨["x", "y"], .compute ["a"]⟩] =
        .error (.duplicateOutput q) :=
  duplicate_output_rejected.1
    [⟨["x"], .rename "a"⟩, ⟨["x", "y"], .compute ["a"]⟩] 0 1
    (by decide) (by decide) "x" (by decide) (by simp) (by simp)


/-- C4: For every graph in which a name `a`'s rule depends on `b` and `b`'s
rule depends on `a`, and neither `a` nor `b` pre-exists on the input data,
running the transform for any target set containing `a` or `b` raises a
cycle-detected error: after `Graph.subgraph` pulls both names in,
`_sort_topologically` (and hence `_non_duplicate_rules`, called by
`_transform_data_array`) fails with the `CycleError` of
`graphlib.TopologicalSorter` instead of silently truncating the subgraph or
producing a rule sequence. -/
theorem cycle_detected (entries : List OldCoords.GEntry)
    (rg : List (String × Nat)) (data : OldCoords.MetaData)
    (targets : List String) (fuel : Nat) (a b : String) (ia ib : Nat)
    (sub : List (String × OldCoords.SRule))
    (hab : a ≠ b)
    (hla : rg.lookup a = some ia) (hlb : rg.lookup b = some ib)
    (hda : b ∈ OldCoords.sruleDeps entries (.entry ia))
    (hdb : a ∈ OldCoords.sruleDeps entries (.entry ib))
    (hma : OldCoords.isMetaData a data = false)
    (hmb : OldCoords.isMetaData b data = false)
    (htar : a ∈ targets ∨ b ∈ targets)
    (hbuild : OldCoords.subgraph entries rg data targets fuel =
      some (.ok sub)) :
    OldCoords.nonDupRules entries sub = .error .cycle := by
  have hpairs := OldCoords.buildSub_ok_pairs fuel [] targets.reverse sub
    hbuild (by intro q hq; cases hq)
  have hclosed := OldCoords.buildSub_ok_closed fuel [] targets.reverse sub
    hbuild (by intro q hq; cases hq)
  have hpend := OldCoords.buildSub_ok_pending fuel [] targets.reverse sub
    hbuild
  have hrfa : OldCoords.ruleFor rg data a = .ok (.entry ia) := by
    unfold OldCoords.ruleFor
    rw [hma]
    simp [hla]
  have hrfb : OldCoords.ruleFor rg data b = .ok (.entry ib) := by
    unfold OldCoords.ruleFor
    rw [hmb]
    simp [hlb]
  -- a key of the subgraph maps to the rule determined by `ruleFor`
  have hkey_rule : ∀ (x : String) (ix : Nat),
      OldCoords.ruleFor rg data x = .ok (.entry ix) →
      x ∈ sub.map Prod.fst → sub.lookup x = some (.entry ix) := by
    intro x ix hrf hx
    obtain ⟨r, hr⟩ := Option.isSome_iff_exists.mp (lookup_isSome_iff.mpr hx)
    have hmem := lookup_mem hr
    have := hpairs _ hmem
    rw [hrf] at this
    cases this
    exact hr
  -- from membership of one of the two names, both are keys
  have hboth : a ∈ sub.map Prod.fst ∧ b ∈ sub.map Prod.fst := by
    rcases htar with ht | ht
    · have ha : a ∈ sub.map Prod.fst :=
        hpend a (List.mem_reverse.mpr ht)
      have hb : b ∈ sub.map Prod.fst :=
        hclosed _ (lookup_mem (hkey_rule a ia hrfa ha)) b hda
      exact ⟨ha, hb⟩
    · have hb : b ∈ sub.map Prod.fst :=
        hpend b (List.mem_reverse.mpr ht)
      have ha : a ∈ sub.map Prod.fst :=
        hclosed _ (lookup_mem (hkey_rule b ib hrfb hb)) a hdb
      exact ⟨ha, hb⟩
  have hlka : sub.lookup a = some (.entry ia) := hkey_rule a ia hrfa hboth.1
  have hlkb : sub.lookup b = some (.entry ib) := hkey_rule b ib hrfb hboth.2
  have hdepsa : Topo.depsOf (OldCoords.subToSorter entries sub) a =
      OldCoords.sruleDeps entries (.entry ia) :=
    OldCoords.subToSorter_depsOf hlka
  have hdepsb : Topo.depsOf (OldCoords.subToSorter entries sub) b =
      OldCoords.sruleDeps entries (.entry ib) :=
    OldCoords.subToSorter_depsOf hlkb
  have hnodes : ∀ x ∈ sub.map Prod.fst,
      x ∈ Topo.sorterNodes (OldCoords.subToSorter entries sub) := by
    intro x hx
    refine (Topo.dedupFirst_mem _ x).mpr ?_
    refine List.mem_append_left _ ?_
    rw [OldCoords.subToSorter_keys]
    exact hx
  have hsort : Topo.topoSort (OldCoords.subToSorter entries sub) =
      .error .cycle := by
    refine Topo.topoSort_cycle hab ?_ ?_ (hnodes a hboth.1) (hnodes b hboth.2)
    · rw [hdepsa]; exact hda
    · rw [hdepsb]; exact hdb
  unfold OldCoords.nonDupRules
  rw [hsort]

/-- Witness for `cycle_detected`: the concrete graph
`{a: rename of b, b: rename of a}`, an input with no pre-existing coords,
and target set `[a]`. -/
theorem cycle_detected_witness :
    OldCoords.nonDupRules
      [⟨["a"], .rename "b"⟩, ⟨["b"], .rename "a"⟩]
      [("a", OldCoords.SRule.entry 0), ("b", OldCoords.SRule.entry 1)] =
      .error .cycle :=
  cycle_detected [⟨["a"], .rename "b"⟩, ⟨["b"], .rename "a"⟩]
    [("a", 0), ("b", 1)] ⟨[], none⟩ ["a"] 5 "a" "b" 0 1
    [("a", OldCoords.SRule.entry 0), ("b", OldCoords.SRule.entry 1)]
    (by decide) (by rfl) (by rfl) (by simp [OldCoords.sruleDeps,
      OldCoords.producerDeps]) (by simp [OldCoords.sruleDeps,
      OldCoords.producerDeps]) (by rfl) (by rfl) (Or.inl (by simp)) (by rfl)

/-- C5: For every acyclic graph and target set, building the minimal
subgraph (`Graph.subgraph`) and then computing the rule sequence
(`_non_duplicate_rules`) yields a list of distinct rules (no rule occurs
twice even when it produces multiple requested outputs) in which every
rule's dependencies appear, as outputs of earlier rules in the list, before
the rule that consumes them.  Acyclicity is expressed as success of the
topological sorter. -/
theorem rule_sequence_ordered (entries : List OldCoords.GEntry)
    (rg : List (String × Nat)) (data : OldCoords.MetaData)
    (targets : List String) (fuel : Nat)
    (sub : List (String × OldCoords.SRule)) (order : List String)
    (hconv : OldCoords.convertToRuleGraph entries = .ok rg)
    (hbuild : OldCoords.subgraph entries rg data targets fuel =
      some (.ok sub))
    (hsort : Topo.topoSort (OldCoords.subToSorter entries sub) = .ok order) :
    ∃ rules, OldCoords.nonDupRules entries sub = .ok rules ∧
      rules.Nodup ∧ OldCoords.RulesOrdered entries rules := by
  have hpairs := OldCoords.buildSub_ok_pairs fuel [] targets.reverse sub
    hbuild (by intro q hq; cases hq)
  have hclosed := OldCoords.buildSub_ok_closed fuel [] targets.reverse sub
    hbuild (by intro q hq; cases hq)
  have H4 : ∀ (n : String) (r : OldCoords.SRule),
      sub.lookup n = some r → n ∈ OldCoords.sruleOuts entries r := by
    intro n r hlk
    exact OldCoords.ruleFor_out hconv (hpairs _ (lookup_mem hlk))
  obtain ⟨hmemo, hnodupo, hdb⟩ := Topo.topoSort_ok_props hsort
  have hlkall : ∀ n ∈ order, (sub.lookup n).isSome := by
    intro n hn
    refine lookup_isSome_iff.mpr ?_
    exact OldCoords.sorterNodes_sub_keys hclosed n ((hmemo n).mp hn)
  obtain ⟨rules, hrules⟩ := OldCoords.nonDupGo_ok order [] hlkall
  refine ⟨rules, ?_, ?_, ?_⟩
  · unfold OldCoords.nonDupRules
    rw [hsort]
    exact hrules
  · exact OldCoords.nonDupGo_nodup order [] rules hrules (by simp)
  · refine OldCoords.nonDupGo_ordered H4 order [] [] rules ?_ ?_
      (OldCoords.rulesOrdered_nil entries) hrules
    · intro k hk d hd
      simpa using hdb k hk d hd
    · intro d hd
      cases hd

/-- Witness for `rule_sequence_ordered`: the concrete two-step graph
`{y: compute from x, z: compute from y}` over an input that has `x`,
targeting `z`. -/
theorem rule_sequence_ordered_witness :
    ∃ rules, OldCoords.nonDupRules
      [⟨["y"], .compute ["x"]⟩, ⟨["z"], .compute ["y"]⟩]
      [("z", OldCoords.SRule.entry 1), ("y", OldCoords.SRule.entry 0),
        ("x", OldCoords.SRule.fetch "x")] = .ok rules ∧
      rules.Nodup ∧ OldCoords.RulesOrdered
        [⟨["y"], .compute ["x"]⟩, ⟨["z"], .compute ["y"]⟩] rules :=
  rule_sequence_ordered
    [⟨["y"], .compute ["x"]⟩, ⟨["z"], .compute ["y"]⟩]
    [("y", 0), ("z", 1)] ⟨["x"], none⟩ ["z"] 7
    [("z", OldCoords.SRule.entry 1), ("y", OldCoords.SRule.entry 0),
      ("x", OldCoords.SRule.fetch "x")]
    ["x", "y", "z"] (by rfl) (by rfl) (by rfl)

namespace OldCoords

/-- Destination of a coordinate in the output (`_Destination`). -/
inductive Dest where
  | coord
  | attr
  deriving DecidableEq, Repr

/-- Working coordinate of the transform engine (`_Coord` in `coords.py`):
optional dense value, optional event value, and destination. -/
structure OCoord (V : Type) where
  dense : Option V
  event : Option V
  destination : Dest
  deriving DecidableEq, Repr

/-- `_Coord.has_dense`. -/
def OCoord.has_dense {V : Type} (c : OCoord V) : Bool :=
  c.dense.isSome

/-- `_Coord.has_event`. -/
def OCoord.has_event {V : Type} (c : OCoord V) : Bool :=
  c.event.isSome

/-- Result of a user function: a single variable, or a dict of variables
keyed by name. -/
inductive FuncResult (V : Type) where
  | single (v : V)
  | multi (d : List (String × V))
  deriving DecidableEq, Repr

/-- `TypeError` raised by `_ComputeRule._to_dict` when the function returns
a single value while a different number of outputs was declared. -/
inductive EvalErr where
  | typeError
  deriving DecidableEq, Repr

/-- Embedding of `_ComputeRule._to_dict`. -/
def toDict {V : Type} (outNames : List String) :
    FuncResult V → Except EvalErr (List (String × V))
  | .single v =>
    match outNames with
    | [n] => .ok [(n, v)]
    | _ => .error .typeError
  | .multi d => .ok d

/-- `_Rule._consume_coord`: mark the coordinate consumed by moving its
destination to attr. -/
def consumeCoord {V : Type} (c : OCoord V) : OCoord V :=
  { c with destination := .attr }

/-- Embedding of `_ComputeRule._without_unrequested`. -/
def withoutUnrequested {V : Type} (outNames : List String)
    (d : List (String × OCoord V)) : List (String × OCoord V) :=
  d.filter (fun p => decide (p.1 ∈ outNames))

/-- Embedding of `_ComputeRule._compute_pure_dense`: call the function on
the dense values only; every output becomes a dense coordinate.  The first
result component records the argument assignments the function was called
with (one entry per call). -/
def computePureDense {V : Type}
    (func : List (String × Option V) → FuncResult V) (outNames : List String)
    (inputs : List (String × OCoord V)) :
    Except EvalErr
      (List (List (String × Option V)) × List (String × OCoord V)) :=
  let args := inputs.map (fun p => (p.1, p.2.dense))
  match toDict outNames (func args) with
  | .error e => .error e
  | .ok outputs =>
    .ok ([args], outputs.map (fun p => (p.1, ⟨some p.2, none, .coord⟩)))

/-- Embedding of `_ComputeRule._compute_with_events`: call the function
with the event value substituted for every dependency that has one (dense
otherwise); ragged (binned) outputs become event coordinates, non-ragged
outputs dense coordinates. -/
def computeWithEvents {V : Type} (isBinned : V → Bool)
    (func : List (String × Option V) → FuncResult V) (outNames : List String)
    (inputs : List (String × OCoord V)) :
    Except EvalErr
      (List (List (String × Option V)) × List (String × OCoord V)) :=
  let args := inputs.map (fun p =>
    (p.1, if p.2.has_event then p.2.event else p.2.dense))
  match toDict outNames (func args) with
  | .error e => .error e
  | .ok outputs =>
    .ok ([args], outputs.map (fun p =>
      (p.1, if isBinned p.2 then (⟨none, some p.2, .coord⟩ : OCoord V)
            else ⟨some p.2, none, .coord⟩)))

/-- Embedding of `_ComputeRule.__call__`: consume the dependencies, run the
pure-dense evaluation when no dependency has an event component and the
event evaluation otherwise, then drop undeclared outputs. -/
def computeRuleCall {V : Type} (isBinned : V → Bool)
    (func : List (String × Option V) → FuncResult V)
    (outNames argNames : List String) (coords : String → OCoord V) :
    Except EvalErr
      (List (List (String × Option V)) × List (String × OCoord V)) :=
  let inputs := argNames.map (fun n => (n, consumeCoord (coords n)))
  let evaluated :=
    if inputs.all (fun p => !p.2.has_event) then
      computePureDense func outNames inputs
    else
      computeWithEvents isBinned func outNames inputs
  match evaluated with
  | .error e => .error e
  | .ok (calls, outputs) => .ok (calls, withoutUnrequested outNames outputs)

end OldCoords

/-- C3: When a `_ComputeRule` is evaluated: (1) if none of its dependencies
has an event component, the user function is called exactly once, with the
dense values, and every declared output is stored as dense (no event
component); (2) if at least one dependency has an event component, the
function is called (exactly once) with event values substituted for the
dependencies that have them (dense otherwise), and ragged (binned) results
become the event component while non-ragged results become dense; (3) the
pure-dense evaluation and the event evaluation never both run for the same
rule evaluation (the two branch conditions are mutually exclusive), so the
claim's requirement that outputs produced by both evaluations be
value-identical holds vacuously in `_ComputeRule.__call__`. -/
theorem compute_rule_dual_path {V : Type} (isBinned : V → Bool)
    (func : List (String × Option V) → OldCoords.FuncResult V)
    (outNames argNames : List String) (coords : String → OldCoords.OCoord V)
    (calls : List (List (String × Option V)))
    (outs : List (String × OldCoords.OCoord V))
    (h : OldCoords.computeRuleCall isBinned func outNames argNames coords =
      .ok (calls, outs)) :
    ((∀ n ∈ argNames, (coords n).event = none) →
      calls = [argNames.map (fun n => (n, (coords n).dense))] ∧
      (∀ p ∈ outs, p.1 ∈ outNames ∧ p.2.dense.isSome = true ∧
        p.2.event = none ∧ p.2.destination = .coord) ∧
      (∃ fo, OldCoords.toDict outNames
          (func (argNames.map (fun n => (n, (coords n).dense)))) = .ok fo ∧
        ∀ n v, (n, v) ∈ fo → n ∈ outNames →
          (n, (⟨some v, none, .coord⟩ : OldCoords.OCoord V)) ∈ outs)) ∧
    ((∃ n ∈ argNames, (coords n).event ≠ none) →
      calls = [argNames.map (fun n =>
        (n, if (coords n).has_event then (coords n).event
            else (coords n).dense))] ∧
      (∀ p ∈ outs, p.1 ∈ outNames ∧
        ((∃ v, isBinned v = false ∧
            p.2 = (⟨some v, none, .coord⟩ : OldCoords.OCoord V)) ∨
         (∃ v, isBinned v = true ∧
            p.2 = (⟨none, some v, .coord⟩ : OldCoords.OCoord V)))) ∧
      (∃ fo, OldCoords.toDict outNames
          (func (argNames.map (fun n =>
            (n, if (coords n).has_event then (coords n).event
                else (coords n).dense)))) = .ok fo ∧
        ∀ n v, (n, v) ∈ fo → n ∈ outNames →
          (if isBinned v
            then (n, (⟨none, some v, .coord⟩ : OldCoords.OCoord V))
            else (n, (⟨some v, none, .coord⟩ : OldCoords.OCoord V))) ∈ outs)) ∧
    (((∀ n ∈ argNames, (coords n).event = none) ∧
      (∃ n ∈ argNames, (coords n).event ≠ none)) → False) := by
  have hargs : (argNames.map (fun n =>
      (n, OldCoords.consumeCoord (coords n)))).all
        (fun p => !p.2.has_event) = true ↔
      ∀ n ∈ argNames, (coords n).event = none := by
    rw [List.all_eq_true]
    constructor
    · intro hall n hn
      have := hall _ (List.mem_map.mpr ⟨n, hn, rfl⟩)
      simpa [OldCoords.consumeCoord, OldCoords.OCoord.has_event,
        Option.isSome_iff_ne_none] using this
    · intro hnone p hp
      obtain ⟨n, hn, rfl⟩ := List.mem_map.mp hp
      simpa [OldCoords.consumeCoord, OldCoords.OCoord.has_event,
        Option.isSome_iff_ne_none] using hnone n hn
  refine ⟨?_, ?_, ?_⟩
  · -- pure dense branch
    intro hnone
    rw [OldCoords.computeRuleCall] at h
    simp only [hargs.mpr hnone, if_true] at h
    rw [OldCoords.computePureDense] at h
    have heqargs : (argNames.map (fun n =>
        (n, OldCoords.consumeCoord (coords n)))).map
          (fun p => (p.1, p.2.dense)) =
        argNames.map (fun n => (n, (coords n).dense)) := by
      rw [List.map_map]
      rfl
    rw [heqargs] at h
    cases hfo : OldCoords.toDict outNames
        (func (argNames.map (fun n => (n, (coords n).dense)))) with
    | error e =>
      rw [hfo] at h
      cases h
    | ok fo =>
      rw [hfo] at h
      cases h
      refine ⟨rfl, ?_, fo, rfl, ?_⟩
      · intro p hp
        simp only [OldCoords.withoutUnrequested, List.mem_filter,
          List.mem_map] at hp
        obtain ⟨⟨q, hq, rfl⟩, hdecl⟩ := hp
        exact ⟨by simpa using hdecl, by simp, rfl, rfl⟩
      · intro n v hnv hdecl
        simp only [OldCoords.withoutUnrequested, List.mem_filter,
          List.mem_map]
        exact ⟨⟨(n, v), hnv, rfl⟩, by simpa using hdecl⟩
  · -- event branch
    intro hsome
    rw [OldCoords.computeRuleCall] at h
    have hcond : (argNames.map (fun n =>
        (n, OldCoords.consumeCoord (coords n)))).all
          (fun p => !p.2.has_event) = false := by
      rcases Bool.eq_false_or_eq_true ((argNames.map (fun n =>
        (n, OldCoords.consumeCoord (coords n)))).all
          (fun p => !p.2.has_event)) with hb | hb
      · obtain ⟨n, hn, hne⟩ := hsome
        exact absurd (hargs.mp hb n hn) hne
      · exact hb
    simp only [hcond, if_false, Bool.false_eq_true] at h
    rw [OldCoords.computeWithEvents] at h
    have heqargs : (argNames.map (fun n =>
        (n, OldCoords.consumeCoord (coords n)))).map
          (fun p => (p.1, if p.2.has_event then p.2.event else p.2.dense)) =
        argNames.map (fun n =>
          (n, if (coords n).has_event then (coords n).event
              else (coords n).dense)) := by
      rw [List.map_map]
      rfl
    rw [heqargs] at h
    cases hfo : OldCoords.toDict outNames
        (func (argNames.map (fun n =>
          (n, if (coords n).has_event then (coords n).event
              else (coords n).dense)))) with
    | error e =>
      rw [hfo] at h
      cases h
    | ok fo =>
      rw [hfo] at h
      cases h
      refine ⟨rfl, ?_, fo, rfl, ?_⟩
      · intro p hp
        simp only [OldCoords.withoutUnrequested, List.mem_filter,
          List.mem_map] at hp
        obtain ⟨⟨q, hq, rfl⟩, hdecl⟩ := hp
        refine ⟨by simpa using hdecl, ?_⟩
        by_cases hb : isBinned q.2
        · exact Or.inr ⟨q.2, hb, by simp [hb]⟩
        · exact Or.inl ⟨q.2, by simpa using hb, by simp [hb]⟩
      · intro n v hnv hdecl
        by_cases hb : isBinned v
        · simp only [hb, if_true]
          simp only [OldCoords.withoutUnrequested, List.mem_filter,
            List.mem_map]
          exact ⟨⟨(n, v), hnv, by simp [hb]⟩, by simpa using hdecl⟩
        · simp only [hb, Bool.false_eq_true, if_false]
          simp only [OldCoords.withoutUnrequested, List.mem_filter,
            List.mem_map]
          exact ⟨⟨(n, v), hnv, by simp [hb]⟩, by simpa using hdecl⟩
  · rintro ⟨hnone, n, hn, hne⟩
    exact hne (hnone n hn)

/-- Witness for `compute_rule_dual_path`: a concrete evaluation with one
event-carrying dependency; the function is called once with the event
value, the non-ragged output `y` becomes dense and the ragged output `w`
becomes the event component. -/
theorem compute_rule_dual_path_witness :
    OldCoords.computeRuleCall (fun v : Nat => decide (100 ≤ v))
      (fun _ => .multi [("y", 7), ("w", 200)]) ["y", "w"] ["x"]
      (fun _ => ⟨some 3, some 150, .coord⟩) =
      .ok ([[("x", some 150)]],
        [("y", ⟨some 7, none, .coord⟩), ("w", ⟨none, some 200, .coord⟩)]) ∧
    ([[("x", (some 150 : Option Nat))]] :
        List (List (String × Option Nat))) =
      [["x"].map (fun n => (n,
        if (⟨some 3, some 150, .coord⟩ : OldCoords.OCoord Nat).has_event
        then (⟨some 3, some 150, .coord⟩ : OldCoords.OCoord Nat).event
        else (⟨some 3, some 150, .coord⟩ : OldCoords.OCoord Nat).dense))] :=
  ⟨by rfl,
    ((compute_rule_dual_path (fun v : Nat => decide (100 ≤ v))
      (fun _ => .multi [("y", 7), ("w", 200)]) ["y", "w"] ["x"]
      (fun _ => ⟨some 3, some 150, .coord⟩) [[("x", some 150)]]
      [("y", ⟨some 7, none, .coord⟩), ("w", ⟨none, some 200, .coord⟩)]
      (by rfl)).2.1 ⟨"x", by simp, by simp⟩).1⟩

namespace TC

/-- Destination of a coordinate.  Modelled from the spec: storage
destination is primary coordinate vs. secondary attribute (`Destination`
lives in `coord_table.py`, which is not part of this source tree);
`other` swaps the two destinations as used by
`_store_coord`'s `try_del(coord.destination.other)`. -/
inductive Destination where
  | coord
  | attr
  deriving DecidableEq, Repr

/-- The opposite destination. -/
def Destination.other : Destination → Destination
  | .coord => .attr
  | .attr => .coord

/-- Coordinate tracked by the coord table.  Modelled from the spec: a
`Coord` holds an optional dense value, an optional event value, a storage
destination and a usage counter (`Coord` lives in `coord_table.py`, which
is not part of this source tree; `_store_coord` reads exactly these four
fields). -/
structure Coord (V : Type) where
  dense : Option V
  event : Option V
  destination : Destination
  usages : Int
  deriving DecidableEq, Repr

/-- `Coord.has_dense`. -/
def Coord.has_dense {V : Type} (c : Coord V) : Bool :=
  c.dense.isSome

/-- `Coord.has_event`. -/
def Coord.has_event {V : Type} (c : Coord V) : Bool :=
  c.event.isSome

/-- Dict insertion: overwrite the value under an existing key (keeping its
position), else append (Python dict `x[name] = c`). -/
def setKey {V : Type} : List (String × V) → String → V → List (String × V)
  | [], k, v => [(k, v)]
  | (a, b) :: ps, k, v =>
    if a = k then (k, v) :: ps else (a, b) :: setKey ps k v

/-- Dict deletion ignoring a missing key (Python `x.pop(name, None)`). -/
def popKey {V : Type} (l : List (String × V)) (k : String) :
    List (String × V) :=
  l.filter (fun p => p.1 ≠ k)

/-- The per-event stores of the binned payload (`da.bins.coords` and
`da.bins.attrs`). -/
structure BinsView (V : Type) where
  coords : List (String × V)
  attrs : List (String × V)
  deriving DecidableEq, Repr

/-- The slice of a `DataArray` that `_store_coord` manipulates: dense
coordinate and attribute stores, the optional binned payload's stores, and
the payload data of type `P` whose bin-index layout decides whether an
event-coordinate store succeeds. -/
structure StoreDA (V P : Type) where
  coords : List (String × V)
  attrs : List (String × V)
  bins : Option (BinsView V)
  payload : P
  deriving DecidableEq, Repr

/-- Errors that `_store_coord` can surface: the event-coordinate store
failing again on retry (the second `store` call is outside the `try`), or
a missing binned payload. -/
inductive StoreErr where
  | retryFailed
  | noBins
  deriving DecidableEq, Repr

/-- Store an event coordinate into the binned payload's store selected by
the destination. -/
def storeBins {V : Type} (b : BinsView V) (dest : Destination)
    (name : String) (v : V) : BinsView V :=
  match dest with
  | .coord => { b with coords := setKey b.coords name v }
  | .attr => { b with attrs := setKey b.attrs name v }

/-- `try_del(dest)` of `_store_coord`: remove `name` from the destination's
store of the data array and of the binned payload. -/
def tryDel {V P : Type} (da : StoreDA V P) (dest : Destination)
    (name : String) : StoreDA V P :=
  match dest with
  | .coord =>
    { da with
      coords := popKey da.coords name
      bins := da.bins.map (fun b => { b with coords := popKey b.coords name }) }
  | .attr =>
    { da with
      attrs := popKey da.attrs name
      bins := da.bins.map (fun b => { b with attrs := popKey b.attrs name }) }

/-- The event part of `_store_coord`: `try: store(da.bins, coord.event)`
with the copy-on-write recovery.  `binsSetOk p v` models whether assigning
event coordinate `v` into a binned payload with data `p` succeeds (a
`VariableError`/`DimensionError` is raised on mismatching bin indices
otherwise) and `copyP` models `da.data.copy()`; both behaviours belong to
the C++ core outside this source tree.  The `Nat` in the result counts
content-buffer copies performed.  The retried `store` call is outside the
`try`, so a second failure surfaces (`retryFailed`). -/
def storeEvent {V P : Type} (binsSetOk : P → V → Bool) (copyP : P → P)
    (da : StoreDA V P) (dest : Destination) (name : String) (ev : V) :
    Except StoreErr (StoreDA V P × Nat) :=
  match da.bins with
  | none => .error .noBins
  | some b =>
    if binsSetOk da.payload ev then
      .ok ({ da with bins := some (storeBins b dest name ev) }, 0)
    else
      let p2 := copyP da.payload
      if binsSetOk p2 ev then
        .ok ({ da with
          payload := p2
          bins := some (storeBins b dest name ev) }, 1)
      else .error .retryFailed

/-- The dense part of `_store_coord`: `if coord.has_dense: store(da, ...)`. -/
def storeDense {V P : Type} (da : StoreDA V P) (dest : Destination)
    (name : String) : Option V → StoreDA V P
  | some dv =>
    match dest with
    | .coord => { da with coords := setKey da.coords name dv }
    | .attr => { da with attrs := setKey da.attrs name dv }
  | none => da

/-- Embedding of `_store_coord` in `transform_coords.py`:
`try_del(coord.destination.other)` always runs first; a fully consumed
coordinate (`usages == 0`) is deleted from its own destination as well;
otherwise the dense value is stored at the data-array level and the event
value into the binned payload, with copy-on-write recovery. -/
def storeCoord {V P : Type} (binsSetOk : P → V → Bool) (copyP : P → P)
    (da : StoreDA V P) (name : String) (c : Coord V) :
    Except StoreErr (StoreDA V P × Nat) :=
  let da1 := tryDel da c.destination.other name
  if c.usages == 0 then
    .ok (tryDel da1 c.destination name, 0)
  else
    let da2 := storeDense da1 c.destination name c.dense
    match c.event with
    | none => .ok (da2, 0)
    | some ev => storeEvent binsSetOk copyP da2 c.destination name ev

/-- Embedding of the loop of `_store_results`: targets are forced to the
`coord` destination, then each coordinate is stored. -/
def storeResults {V P : Type} (binsSetOk : P → V → Bool) (copyP : P → P)
    (da : StoreDA V P) (targets : List String) :
    List (String × Coord V) → Except StoreErr (StoreDA V P)
  | [] => .ok da
  | (name, c) :: rest =>
    let c1 := if name ∈ targets then { c with destination := .coord } else c
    match storeCoord binsSetOk copyP da name c1 with
    | .error e => .error e
    | .ok (da1, _) => storeResults binsSetOk copyP da1 targets rest

theorem setKey_lookup_self {V : Type} :
    ∀ (l : List (String × V)) (k : String) (v : V),
      (setKey l k v).lookup k = some v := by
  intro l
  induction l with
  | nil => intro k v; simp [setKey, List.lookup]
  | cons p ps ih =>
    obtain ⟨a, b⟩ := p
    intro k v
    by_cases ha : a = k
    · subst ha
      simp [setKey, List.lookup]
    · have hba : (k == a) = false := beq_eq_false_iff_ne.mpr
        (fun hc => ha hc.symm)
      simp only [setKey, if_neg ha, List.lookup, hba]
      exact ih k v

theorem setKey_lookup_ne {V : Type} :
    ∀ (l : List (String × V)) (k k2 : String) (v : V), k2 ≠ k →
      (setKey l k v).lookup k2 = l.lookup k2 := by
  intro l
  induction l with
  | nil =>
    intro k k2 v hk
    have hba : (k2 == k) = false := beq_eq_false_iff_ne.mpr hk
    simp [setKey, List.lookup, hba]
  | cons p ps ih =>
    obtain ⟨a, b⟩ := p
    intro k k2 v hk
    by_cases ha : a = k
    · subst ha
      have hba : (k2 == a) = false := beq_eq_false_iff_ne.mpr hk
      simp only [setKey, if_pos rfl, List.lookup, hba]
    · simp only [setKey, if_neg ha]
      by_cases h2 : k2 = a
      · subst h2
        simp [List.lookup]
      · have hba : (k2 == a) = false := beq_eq_false_iff_ne.mpr h2
        simp only [List.lookup, hba]
        exact ih k k2 v hk

theorem popKey_lookup_self {V : Type} (l : List (String × V)) (k : String) :
    (popKey l k).lookup k = none := by
  unfold popKey
  induction l with
  | nil => simp [List.lookup]
  | cons p ps ih =>
    obtain ⟨a, b⟩ := p
    by_cases ha : a = k
    · subst ha
      simp only [List.filter_cons]
      rw [if_neg (by simp)]
      exact ih
    · simp only [List.filter_cons]
      rw [if_pos (by simpa using ha)]
      have hba : (k == a) = false := beq_eq_false_iff_ne.mpr
        (fun hc => ha hc.symm)
      simp only [List.lookup, hba]
      exact ih

theorem popKey_lookup_ne {V : Type} (l : List (String × V)) (k k2 : String)
    (hk : k2 ≠ k) : (popKey l k).lookup k2 = l.lookup k2 := by
  unfold popKey
  induction l with
  | nil => simp
  | cons p ps ih =>
    obtain ⟨a, b⟩ := p
    by_cases ha : a = k
    · subst ha
      simp only [List.filter_cons]
      rw [if_neg (by simp)]
      have hba : (k2 == a) = false := beq_eq_false_iff_ne.mpr hk
      simp only [List.lookup, hba]
      exact ih
    · simp only [List.filter_cons]
      rw [if_pos (by simpa using ha)]
      by_cases h2 : k2 = a
      · subst h2
        simp [List.lookup]
      · have hba : (k2 == a) = false := beq_eq_false_iff_ne.mpr h2
        simp only [List.lookup, hba]
        exact ih

theorem tryDel_payload {V P : Type} (da : StoreDA V P) (dest : Destination)
    (name : String) : (tryDel da dest name).payload = da.payload := by
  cases dest <;> rfl

theorem tryDel_bins_isSome {V P : Type} (da : StoreDA V P)
    (dest : Destination) (name : String) (b : BinsView V)
    (h : da.bins = some b) :
    ∃ b2, (tryDel da dest name).bins = some b2 := by
  cases dest <;> simp [tryDel, h]

theorem storeDense_payload {V P : Type} (da : StoreDA V P)
    (dest : Destination) (name : String) (od : Option V) :
    (storeDense da dest name od).payload = da.payload := by
  cases od with
  | none => rfl
  | some dv => cases dest <;> rfl

theorem storeDense_bins {V P : Type} (da : StoreDA V P) (dest : Destination)
    (name : String) (od : Option V) :
    (storeDense da dest name od).bins = da.bins := by
  cases od with
  | none => rfl
  | some dv => cases dest <;> rfl

theorem storeEvent_recovered {V P : Type} (binsSetOk : P → V → Bool)
    (copyP : P → P) (da : StoreDA V P) (dest : Destination) (name : String)
    (ev : V) (b : BinsView V)
    (hrecover : ∀ p v, binsSetOk (copyP p) v = true)
    (hbins : da.bins = some b) :
    ∃ da1 copies, storeEvent binsSetOk copyP da dest name ev =
        .ok (da1, copies) ∧
      copies ≤ 1 ∧ (copies = 1 ↔ binsSetOk da.payload ev = false) ∧
      da1.bins = some (storeBins b dest name ev) := by
  unfold storeEvent
  rw [hbins]
  cases hset : binsSetOk da.payload ev with
  | true =>
    refine ⟨_, 0, rfl, by omega, by simp [hset], rfl⟩
  | false =>
    simp only [Bool.false_eq_true, if_false, hrecover, if_true]
    refine ⟨_, 1, rfl, le_rfl, by simp [hset], rfl⟩

theorem storeEvent_ok_fields {V P : Type} {binsSetOk : P → V → Bool}
    {copyP : P → P} {da : StoreDA V P} {dest : Destination} {name : String}
    {ev : V} {da1 : StoreDA V P} {k : Nat}
    (h : storeEvent binsSetOk copyP da dest name ev = .ok (da1, k)) :
    da1.coords = da.coords ∧ da1.attrs = da.attrs ∧
    ∃ b0, da.bins = some b0 ∧ da1.bins = some (storeBins b0 dest name ev) := by
  unfold storeEvent at h
  cases hb : da.bins with
  | none =>
    rw [hb] at h
    cases h
  | some b0 =>
    rw [hb] at h
    simp only [] at h
    cases hset : binsSetOk da.payload ev with
    | true =>
      rw [if_pos hset] at h
      cases h
      exact ⟨rfl, rfl, b0, rfl, rfl⟩
    | false =>
      rw [if_neg (by simp [hset])] at h
      cases hset2 : binsSetOk (copyP da.payload) ev with
      | true =>
        simp only [hset2, if_true] at h
        cases h
        exact ⟨rfl, rfl, b0, rfl, rfl⟩
      | false =>
        simp only [hset2, Bool.false_eq_true, if_false] at h
        cases h

theorem storeDense_coord_attrs {V P : Type} (da : StoreDA V P)
    (name : String) (od : Option V) :
    (storeDense da .coord name od).attrs = da.attrs := by
  cases od <;> rfl

theorem storeDense_attr_coords {V P : Type} (da : StoreDA V P)
    (name : String) (od : Option V) :
    (storeDense da .attr name od).coords = da.coords := by
  cases od <;> rfl

theorem storeCoord_ok_opposite_cleared {V P : Type}
    {binsSetOk : P → V → Bool} {copyP : P → P} {da : StoreDA V P}
    {name : String} {c : Coord V} {da1 : StoreDA V P} {k : Nat}
    (h : storeCoord binsSetOk copyP da name c = .ok (da1, k)) :
    (c.destination = .coord →
      da1.attrs.lookup name = none ∧
      ∀ b1, da1.bins = some b1 → b1.attrs.lookup name = none) ∧
    (c.destination = .attr →
      da1.coords.lookup name = none ∧
      ∀ b1, da1.bins = some b1 → b1.coords.lookup name = none) := by
  cases hdest : c.destination with
  | coord =>
    refine ⟨fun _ => ?_, fun hc => (nomatch hc)⟩
    unfold storeCoord at h
    rw [hdest] at h
    simp only [Destination.other] at h
    split at h
    · -- usages == 0: both destinations deleted
      cases h
      constructor
      · show ((tryDel (tryDel da .attr name) .coord name).attrs.lookup name)
          = none
        show ((tryDel da .attr name).attrs.lookup name) = none
        exact popKey_lookup_self da.attrs name
      · intro b1 hb1
        have hb1' : ((tryDel da .attr name).bins.map
            (fun b => { b with coords := popKey b.coords name })) = some b1 :=
          hb1
        rw [Option.map_eq_some'] at hb1'
        obtain ⟨bx, hbx, hbxe⟩ := hb1'
        have hbx' : (da.bins.map
            (fun b => { b with attrs := popKey b.attrs name })) = some bx :=
          hbx
        rw [Option.map_eq_some'] at hbx'
        obtain ⟨b, hb, hbe⟩ := hbx'
        rw [← hbxe, ← hbe]
        exact popKey_lookup_self b.attrs name
    · cases hev : c.event with
      | none =>
        rw [hev] at h
        simp only [] at h
        cases h
        constructor
        · rw [storeDense_coord_attrs]
          exact popKey_lookup_self da.attrs name
        · intro b1 hb1
          rw [storeDense_bins] at hb1
          have hb1' : (da.bins.map
              (fun b => { b with attrs := popKey b.attrs name })) = some b1 :=
            hb1
          rw [Option.map_eq_some'] at hb1'
          obtain ⟨b, hb, hbe⟩ := hb1'
          rw [← hbe]
          exact popKey_lookup_self b.attrs name
      | some ev =>
        rw [hev] at h
        simp only [] at h
        obtain ⟨hco, hat, b0, hb0, hbins⟩ := storeEvent_ok_fields h
        constructor
        · rw [hat, storeDense_coord_attrs]
          exact popKey_lookup_self da.attrs name
        · intro b1 hb1
          rw [hbins] at hb1
          cases hb1
          show (storeBins b0 .coord name ev).attrs.lookup name = none
          rw [storeDense_bins] at hb0
          have hb0' : (da.bins.map
              (fun b => { b with attrs := popKey b.attrs name })) = some b0 :=
            hb0
          rw [Option.map_eq_some'] at hb0'
          obtain ⟨b, hb, hbe⟩ := hb0'
          show b0.attrs.lookup name = none
          rw [← hbe]
          exact popKey_lookup_self b.attrs name
  | attr =>
    refine ⟨fun hc => (nomatch hc), fun _ => ?_⟩
    unfold storeCoord at h
    rw [hdest] at h
    simp only [Destination.other] at h
    split at h
    · cases h
      constructor
      · show ((tryDel (tryDel da .coord name) .attr name).coords.lookup name)
          = none
        show ((tryDel da .coord name).coords.lookup name) = none
        exact popKey_lookup_self da.coords name
      · intro b1 hb1
        have hb1' : ((tryDel da .coord name).bins.map
            (fun b => { b with attrs := popKey b.attrs name })) = some b1 :=
          hb1
        rw [Option.map_eq_some'] at hb1'
        obtain ⟨bx, hbx, hbxe⟩ := hb1'
        have hbx' : (da.bins.map
            (fun b => { b with coords := popKey b.coords name })) = some bx :=
          hbx
        rw [Option.map_eq_some'] at hbx'
        obtain ⟨b, hb, hbe⟩ := hbx'
        rw [← hbxe, ← hbe]
        exact popKey_lookup_self b.coords name
    · cases hev : c.event with
      | none =>
        rw [hev] at h
        simp only [] at h
        cases h
        constructor
        · rw [storeDense_attr_coords]
          exact popKey_lookup_self da.coords name
        · intro b1 hb1
          rw [storeDense_bins] at hb1
          have hb1' : (da.bins.map
              (fun b => { b with coords := popKey b.coords name })) = some b1 :=
            hb1
          rw [Option.map_eq_some'] at hb1'
          obtain ⟨b, hb, hbe⟩ := hb1'
          rw [← hbe]
          exact popKey_lookup_self b.coords name
      | some ev =>
        rw [hev] at h
        simp only [] at h
        obtain ⟨hco, hat, b0, hb0, hbins⟩ := storeEvent_ok_fields h
        constructor
        · rw [hco, storeDense_attr_coords]
          exact popKey_lookup_self da.coords name
        · intro b1 hb1
          rw [hbins] at hb1
          cases hb1
          show (storeBins b0 .attr name ev).coords.lookup name = none
          rw [storeDense_bins] at hb0
          have hb0' : (da.bins.map
              (fun b => { b with coords := popKey b.coords name })) = some b0 :=
            hb0
          rw [Option.map_eq_some'] at hb0'
          obtain ⟨b, hb, hbe⟩ := hb0'
          show b0.coords.lookup name = none
          rw [← hbe]
          exact popKey_lookup_self b.coords name

/-- The four lookups of key `n2` agree between two data arrays (used to
state that storing a different name does not disturb `n2`). -/
def SameAt {V P : Type} (n2 : String) (da1 da : StoreDA V P) : Prop :=
  da1.coords.lookup n2 = da.coords.lookup n2 ∧
  da1.attrs.lookup n2 = da.attrs.lookup n2 ∧
  da1.bins.map (fun b => b.coords.lookup n2) =
    da.bins.map (fun b => b.coords.lookup n2) ∧
  da1.bins.map (fun b => b.attrs.lookup n2) =
    da.bins.map (fun b => b.attrs.lookup n2)

theorem sameAt_refl {V P : Type} (n2 : String) (da : StoreDA V P) :
    SameAt n2 da da :=
  ⟨rfl, rfl, rfl, rfl⟩

theorem sameAt_trans {V P : Type} {n2 : String} {da2 da1 da : StoreDA V P}
    (h1 : SameAt n2 da2 da1) (h2 : SameAt n2 da1 da) : SameAt n2 da2 da :=
  ⟨h1.1.trans h2.1, h1.2.1.trans h2.2.1, h1.2.2.1.trans h2.2.2.1,
    h1.2.2.2.trans h2.2.2.2⟩

theorem tryDel_sameAt {V P : Type} (da : StoreDA V P) (dest : Destination)
    (name n2 : String) (hne : n2 ≠ name) :
    SameAt n2 (tryDel da dest name) da := by
  cases dest with
  | coord =>
    have hb : (tryDel da Destination.coord name).bins =
        da.bins.map (fun b => { b with coords := popKey b.coords name }) :=
      rfl
    refine ⟨popKey_lookup_ne da.coords name n2 hne, rfl, ?_, ?_⟩
    · rw [hb]
      cases da.bins with
      | none => rfl
      | some b =>
        simp only [Option.map_some']
        rw [popKey_lookup_ne b.coords name n2 hne]
    · rw [hb]
      cases da.bins with
      | none => rfl
      | some b => rfl
  | attr =>
    have hb : (tryDel da Destination.attr name).bins =
        da.bins.map (fun b => { b with attrs := popKey b.attrs name }) :=
      rfl
    refine ⟨rfl, popKey_lookup_ne da.attrs name n2 hne, ?_, ?_⟩
    · rw [hb]
      cases da.bins with
      | none => rfl
      | some b => rfl
    · rw [hb]
      cases da.bins with
      | none => rfl
      | some b =>
        simp only [Option.map_some']
        rw [popKey_lookup_ne b.attrs name n2 hne]

theorem storeDense_sameAt {V P : Type} (da : StoreDA V P)
    (dest : Destination) (name n2 : String) (od : Option V)
    (hne : n2 ≠ name) : SameAt n2 (storeDense da dest name od) da := by
  cases od with
  | none => exact sameAt_refl n2 da
  | some dv =>
    cases dest with
    | coord => exact ⟨setKey_lookup_ne da.coords name n2 dv hne, rfl, rfl, rfl⟩
    | attr => exact ⟨rfl, setKey_lookup_ne da.attrs name n2 dv hne, rfl, rfl⟩

theorem storeEvent_sameAt {V P : Type} {binsSetOk : P → V → Bool}
    {copyP : P → P} {da : StoreDA V P} {dest : Destination} {name : String}
    {ev : V} {da1 : StoreDA V P} {k : Nat} (n2 : String) (hne : n2 ≠ name)
    (h : storeEvent binsSetOk copyP da dest name ev = .ok (da1, k)) :
    SameAt n2 da1 da := by
  obtain ⟨hco, hat, b0, hb0, hbins⟩ := storeEvent_ok_fields h
  refine ⟨by rw [hco], by rw [hat], ?_, ?_⟩
  · rw [hbins, hb0]
    simp only [Option.map_some']
    cases dest with
    | coord =>
      show some ((setKey b0.coords name ev).lookup n2) = _
      rw [setKey_lookup_ne b0.coords name n2 ev hne]
    | attr => rfl
  · rw [hbins, hb0]
    simp only [Option.map_some']
    cases dest with
    | coord => rfl
    | attr =>
      show some ((setKey b0.attrs name ev).lookup n2) = _
      rw [setKey_lookup_ne b0.attrs name n2 ev hne]

theorem storeCoord_sameAt {V P : Type} {binsSetOk : P → V → Bool}
    {copyP : P → P} {da : StoreDA V P} {name : String} {c : Coord V}
    {da1 : StoreDA V P} {k : Nat} (n2 : String) (hne : n2 ≠ name)
    (h : storeCoord binsSetOk copyP da name c = .ok (da1, k)) :
    SameAt n2 da1 da := by
  unfold storeCoord at h
  split at h
  · cases h
    exact sameAt_trans
      (tryDel_sameAt (tryDel da c.destination.other name) c.destination name
        n2 hne)
      (tryDel_sameAt da c.destination.other name n2 hne)
  · cases hev : c.event with
    | none =>
      rw [hev] at h
      simp only [] at h
      cases h
      exact sameAt_trans
        (storeDense_sameAt (tryDel da c.destination.other name) c.destination
          name n2 c.dense hne)
        (tryDel_sameAt da c.destination.other name n2 hne)
    | some ev =>
      rw [hev] at h
      simp only [] at h
      exact sameAt_trans (storeEvent_sameAt n2 hne h)
        (sameAt_trans
          (storeDense_sameAt (tryDel da c.destination.other name)
            c.destination name n2 c.dense hne)
          (tryDel_sameAt da c.destination.other name n2 hne))

theorem storeResults_sameAt {V P : Type} {binsSetOk : P → V → Bool}
    {copyP : P → P} {targets : List String} :
    ∀ (l : List (String × Coord V)) (da da1 : StoreDA V P) (n2 : String),
      storeResults binsSetOk copyP da targets l = .ok da1 →
      n2 ∉ l.map Prod.fst → SameAt n2 da1 da := by
  intro l
  induction l with
  | nil =>
    intro da da1 n2 h _
    cases h
    exact sameAt_refl n2 da
  | cons p rest ih =>
    obtain ⟨n, c⟩ := p
    intro da da1 n2 h hni
    simp only [storeResults] at h
    have hne : n2 ≠ n := by
      intro hc
      exact hni (by simp [hc])
    split at h
    · cases h
    · rename_i da2 k hsc
      exact sameAt_trans
        (ih da2 da1 n2 h (fun hc => hni (by simp [hc])))
        (storeCoord_sameAt n2 hne hsc)

end TC

/-- C6: During result write-back, if storing an event coordinate into the
binned payload fails because of an incompatible bin-index layout, the
failure is recovered locally by copying the content buffer exactly once
(`da.data = da.data.copy()`) and retrying the same store, and this error is
never surfaced to the caller: under the (spec-modelled) assumption that the
store succeeds on a freshly copied buffer, `_store_coord` returns
successfully, performs at most one copy — exactly one precisely when the
first store attempt failed — and the event coordinate ends up stored in the
binned payload's destination store. -/
theorem event_store_recovered {V P : Type} (binsSetOk : P → V → Bool)
    (copyP : P → P) (da : TC.StoreDA V P) (name : String) (c : TC.Coord V)
    (ev : V) (b : TC.BinsView V)
    (hrecover : ∀ p v, binsSetOk (copyP p) v = true)
    (hbins : da.bins = some b) (husage : c.usages ≠ 0)
    (hev : c.event = some ev) :
    ∃ da1 copies, TC.storeCoord binsSetOk copyP da name c =
        .ok (da1, copies) ∧
      copies ≤ 1 ∧ (copies = 1 ↔ binsSetOk da.payload ev = false) ∧
      ∃ b1, da1.bins = some b1 ∧
        (c.destination = .coord → b1.coords.lookup name = some ev) ∧
        (c.destination = .attr → b1.attrs.lookup name = some ev) := by
  have husage' : (c.usages == 0) = false := beq_eq_false_iff_ne.mpr husage
  obtain ⟨b2, hb2⟩ := TC.tryDel_bins_isSome da c.destination.other name b hbins
  have hb2' : (TC.storeDense (TC.tryDel da c.destination.other name)
      c.destination name c.dense).bins = some b2 := by
    rw [TC.storeDense_bins]
    exact hb2
  have hpay2 : (TC.storeDense (TC.tryDel da c.destination.other name)
      c.destination name c.dense).payload = da.payload := by
    rw [TC.storeDense_payload, TC.tryDel_payload]
  obtain ⟨da3, copies, hrun, hle, hiff, hbins3⟩ :=
    TC.storeEvent_recovered binsSetOk copyP
      (TC.storeDense (TC.tryDel da c.destination.other name)
        c.destination name c.dense)
      c.destination name ev b2 hrecover hb2'
  refine ⟨da3, copies, ?_, hle, ?_, ?_⟩
  · simp only [TC.storeCoord, husage', Bool.false_eq_true, if_false, hev]
    exact hrun
  · rw [← hpay2]
    exact hiff
  · refine ⟨TC.storeBins b2 c.destination name ev, hbins3, ?_, ?_⟩
    · intro hd
      rw [hd]
      simp [TC.storeBins, TC.setKey_lookup_self]
    · intro hd
      rw [hd]
      simp [TC.storeBins, TC.setKey_lookup_self]

/-- Witness for `event_store_recovered`: a concrete store in which the
first attempt fails (payload `3` is incompatible), the buffer is copied
once (the copy always has the compatible payload `5`) and the retry
succeeds without surfacing an error. -/
theorem event_store_recovered_witness :
    ∃ da1 copies,
      TC.storeCoord (fun p (_ : Nat) => decide (p = 5)) (fun (_ : Nat) => 5)
        (⟨[], [], some ⟨[], []⟩, 3⟩ : TC.StoreDA Nat Nat) "e"
        ⟨none, some 7, .coord, 1⟩ = .ok (da1, copies) ∧
      copies ≤ 1 ∧
      (copies = 1 ↔ decide ((3 : Nat) = 5) = false) ∧
      ∃ b1, da1.bins = some b1 ∧
        ((TC.Destination.coord : TC.Destination) = .coord →
          b1.coords.lookup "e" = some 7) ∧
        ((TC.Destination.coord : TC.Destination) = .attr →
          b1.attrs.lookup "e" = some 7) :=
  event_store_recovered (fun p (_ : Nat) => decide (p = 5))
    (fun (_ : Nat) => 5) (⟨[], [], some ⟨[], []⟩, 3⟩ : TC.StoreDA Nat Nat)
    "e" ⟨none, some 7, .coord, 1⟩ 7 ⟨[], []⟩
    (fun p v => rfl) (by rfl) (by decide) (by rfl)

/-- C10: After write-back of a transform result (`_store_results` looping
`_store_coord`), every coordinate name that was stored is present in at
most one of the primary (`coords`) and secondary (`attrs`) stores of the
output, and likewise in the binned payload's per-event stores, because
`_store_coord` always deletes the name from the opposite destination
before (or instead of) writing it. -/
theorem stored_names_exclusive {V P : Type} (binsSetOk : P → V → Bool)
    (copyP : P → P) (da da1 : TC.StoreDA V P) (targets : List String)
    (l : List (String × TC.Coord V))
    (h : TC.storeResults binsSetOk copyP da targets l = .ok da1) :
    ∀ name ∈ l.map Prod.fst,
      (¬((da1.coords.lookup name).isSome = true ∧
        (da1.attrs.lookup name).isSome = true)) ∧
      (∀ b1, da1.bins = some b1 →
        ¬((b1.coords.lookup name).isSome = true ∧
          (b1.attrs.lookup name).isSome = true)) := by
  induction l generalizing da with
  | nil =>
    intro name hname
    simp at hname
  | cons p rest ih =>
    obtain ⟨n, c⟩ := p
    simp only [TC.storeResults] at h
    split at h
    · cases h
    · rename_i da2 k hsc
      intro name hname
      by_cases hrest : name ∈ rest.map Prod.fst
      · exact ih da2 h name hrest
      · have hnn : name = n := by
          rcases (by simpa using hname : name = n ∨ ∃ x, (name, x) ∈ rest)
              with h' | ⟨x, hx⟩
          · exact h'
          · exact absurd (List.mem_map.mpr ⟨(name, x), hx, rfl⟩) hrest
        subst hnn
        have hopp := TC.storeCoord_ok_opposite_cleared hsc
        obtain ⟨hc1, hc2, hc3, hc4⟩ :=
          TC.storeResults_sameAt rest da2 da1 name h hrest
        cases hd : (if name ∈ targets
            then { c with destination := TC.Destination.coord }
            else c).destination with
        | coord =>
          obtain ⟨hclr, hclrb⟩ := hopp.1 hd
          constructor
          · rintro ⟨h1, h2⟩
            rw [hc2, hclr] at h2
            simp at h2
          · intro b1 hb1
            rintro ⟨h1, h2⟩
            rw [hb1, Option.map_some'] at hc4
            obtain ⟨b0, hb0, hbeq⟩ := Option.map_eq_some'.mp hc4.symm
            rw [← hbeq, hclrb b0 hb0] at h2
            simp at h2
        | attr =>
          obtain ⟨hclr, hclrb⟩ := hopp.2 hd
          constructor
          · rintro ⟨h1, h2⟩
            rw [hc1, hclr] at h1
            simp at h1
          · intro b1 hb1
            rintro ⟨h1, h2⟩
            rw [hb1, Option.map_some'] at hc3
            obtain ⟨b0, hb0, hbeq⟩ := Option.map_eq_some'.mp hc3.symm
            rw [← hbeq, hclrb b0 hb0] at h1
            simp at h1

/-- Witness for `stored_names_exclusive`: storing the names `x` (dense,
coord destination) and `y` (dense, attr destination) into a data array that
previously held both names in both stores leaves each name in at most one
store. -/
theorem stored_names_exclusive_witness :
    TC.storeResults (fun (_ : Nat) (_ : Nat) => true) (fun p => p)
      (⟨[("x", 1), ("y", 2)], [("x", 3), ("y", 4)], none, 0⟩ :
        TC.StoreDA Nat Nat) []
      [("x", ⟨some 10, none, .coord, 2⟩), ("y", ⟨some 11, none, .attr, 3⟩)] =
      .ok ⟨[("x", 10)], [("y", 11)], none, 0⟩ ∧
    ¬((([("x", (10 : Nat))].lookup "x").isSome = true) ∧
      (([("y", (11 : Nat))].lookup "x").isSome = true)) :=
  ⟨by rfl,
    (stored_names_exclusive (fun (_ : Nat) (_ : Nat) => true) (fun p => p)
      (⟨[("x", 1), ("y", 2)], [("x", 3), ("y", 4)], none, 0⟩ :
        TC.StoreDA Nat Nat)
      (⟨[("x", 10)], [("y", 11)], none, 0⟩ : TC.StoreDA Nat Nat) []
      [("x", ⟨some 10, none, .coord, 2⟩), ("y", ⟨some 11, none, .attr, 3⟩)]
      (by rfl) "x" (by simp)).1⟩

namespace TC

/-- `Graph.children_of` of the rule graph of `transform_coords.py`.  The
`Graph` class lives in `graph.py`, which is not part of this source tree.
Modelled from the spec: the graph maps each output coordinate name to its
dependency names; the children of `n` are the nodes whose rule depends on
`n`. -/
def childrenOf (g : List (String × List String)) (n : String) :
    List String :=
  (g.filter (fun p => decide (n ∈ p.2))).map Prod.fst

/-- Color of `node` for dimension `dim` in the nested color table of
`_color_dims` (a dict of dicts of `Fraction`s). -/
def getColor (cs : List (String × List (String × ℚ))) (node dim : String) :
    ℚ :=
  (((cs.lookup node).getD []).lookup dim).getD 0

/-- Update the color of `node` for dimension `dim`. -/
def setColor (cs : List (String × List (String × ℚ))) (node dim : String)
    (q : ℚ) : List (String × List (String × ℚ)) :=
  cs.map (fun p => if p.1 = node then (node, setKey p.2 dim q) else p)

/-- The depth-first propagation loop of `_color_dims` for one dimension.
The stack is kept reversed relative to the Python list: `pop()` takes the
head and `extend(children)` prepends the reversed children.  Each child
that is not itself a tracked dimension coordinate inherits
`colors[coord][dim] * 1/len(children)`.  `fuel` bounds the iterations
(`none` when exhausted); the source loop terminates on the acyclic graphs
produced by `graph_for`. -/
def colorLoop (g : List (String × List String)) (dimCoords : List String)
    (dim : String) :
    Nat → List String → List (String × List (String × ℚ)) →
      Option (List (String × List (String × ℚ)))
  | _, [], colors => some colors
  | 0, _ :: _, _ => none
  | fuel + 1, coord :: stack, colors =>
    let children := childrenOf g coord
    let colors1 := children.foldl (fun cs child =>
      if child ∈ dimCoords then cs
      else setColor cs child dim
        (getColor cs child dim +
          getColor cs coord dim * (1 / (children.length : ℚ)))) colors
    colorLoop g dimCoords dim fuel (children.reverse ++ stack) colors1

/-- Initial color table of `_color_dims`: every graph node gets color 0 for
every tracked dimension. -/
def colorInit (g : List (String × List String)) (dims : List String) :
    List (String × List (String × ℚ)) :=
  g.map (fun p => (p.1, dims.map (fun d => (d, (0 : ℚ)))))

/-- Embedding of `_color_dims`: seed each tracked dimension coordinate with
color 1 for itself and propagate depth-first. -/
def colorDims (g : List (String × List String)) (dims : List String)
    (fuel : Nat) : Option (List (String × List (String × ℚ))) :=
  dims.foldl (fun ocs dim =>
    ocs.bind (fun cs => colorLoop g dims dim fuel [dim]
      (setColor cs dim dim 1)))
    (some (colorInit g dims))

/-- Embedding of `_has_full_color_of_dim`: among all tracked dimensions the
node's color is exactly 1 for `dim` and not 1 for every other. -/
def hasFullColorOfDim (colors : List (String × List (String × ℚ)))
    (node : String) (dims : List String) (dim : String) : Bool :=
  dims.all (fun d =>
    if d = dim then decide (getColor colors node d = 1)
    else decide (getColor colors node d ≠ 1))

/-- Selection part of `_dim_name_changes`: for each tracked dimension scan
the reversed topological order of the graph and pick the first node with
full color; a dimension without an eligible node is absent from the
result. -/
def dimNameChangesFrom (colors : List (String × List (String × ℚ)))
    (nodesRev : List String) (dims : List String) :
    List (String × String) :=
  dims.filterMap (fun dim =>
    (nodesRev.find? (fun node => hasFullColorOfDim colors node dims dim)).map
      (fun node => (dim, node)))

/-- Embedding of `_dim_name_changes`: color the graph, then scan the
reversed topological order (`list(graph.nodes_topologically())[::-1]`). -/
def dimNameChanges (g : List (String × List String)) (dims : List String)
    (fuel : Nat) : Option (List (String × String)) :=
  match colorDims g dims fuel with
  | none => none
  | some colors =>
    match Topo.topoSort g with
    | .error _ => none
    | .ok order => some (dimNameChangesFrom colors order.reverse dims)

theorem dimNameChangesFrom_lookup_not_mem
    (colors : List (String × List (String × ℚ))) (nodesRev : List String)
    (dims : List String) :
    ∀ (ds : List String) (dim : String), dim ∉ ds →
      (ds.filterMap (fun d =>
        (nodesRev.find? (fun node =>
          hasFullColorOfDim colors node dims d)).map
            (fun node => (d, node)))).lookup dim = none := by
  intro ds
  induction ds with
  | nil => intro dim _; rfl
  | cons d rest ih =>
    intro dim hdim
    have hne : dim ≠ d := fun hc => hdim (by simp [hc])
    have hba : (dim == d) = false := beq_eq_false_iff_ne.mpr hne
    simp only [List.filterMap_cons]
    cases hf : (nodesRev.find? (fun node =>
        hasFullColorOfDim colors node dims d)) with
    | none =>
      exact ih dim (fun hc => hdim (List.mem_cons_of_mem _ hc))
    | some n =>
      simp only [Option.map_some', List.lookup, hba]
      exact ih dim (fun hc => hdim (List.mem_cons_of_mem _ hc))

theorem dimNameChangesFrom_lookup
    (colors : List (String × List (String × ℚ))) (nodesRev : List String)
    (dims : List String) :
    ∀ (ds : List String), ds.Nodup → ∀ dim ∈ ds,
      (ds.filterMap (fun d =>
        (nodesRev.find? (fun node =>
          hasFullColorOfDim colors node dims d)).map
            (fun node => (d, node)))).lookup dim =
        nodesRev.find? (fun node =>
          hasFullColorOfDim colors node dims dim) := by
  intro ds
  induction ds with
  | nil => intro _ dim hdim; cases hdim
  | cons d rest ih =>
    intro hnd dim hdim
    simp only [List.filterMap_cons]
    by_cases hde : dim = d
    · subst hde
      have hnin : dim ∉ rest := (List.nodup_cons.mp hnd).1
      cases hf : (nodesRev.find? (fun node =>
          hasFullColorOfDim colors node dims dim)) with
      | none =>
        exact dimNameChangesFrom_lookup_not_mem colors nodesRev dims rest
          dim hnin
      | some n =>
        simp [List.lookup]
    · have hdr : dim ∈ rest := by
        rcases List.mem_cons.mp hdim with h' | h'
        · exact absurd h' hde
        · exact h'
      have hba : (dim == d) = false := beq_eq_false_iff_ne.mpr hde
      cases hf : (nodesRev.find? (fun node =>
          hasFullColorOfDim colors node dims d)) with
      | none => exact ih (List.nodup_cons.mp hnd).2 dim hdr
      | some n =>
        simp only [Option.map_some', List.lookup, hba]
        exact ih (List.nodup_cons.mp hnd).2 dim hdr

end TC

/-- C1: In the dimension-rename analysis (`_dim_name_changes`), for every
tracked dimension coordinate, a node is eligible to take over the
dimension's name exactly when its accumulated fractional color
(`_color_dims`) is 1 for that dimension and not 1 for every other tracked
dimension (`_has_full_color_of_dim`); among eligible nodes the first one
encountered when scanning the topological order of the subgraph in reverse
is chosen as the dimension's new name, and if no node is eligible the
dimension is not renamed (absent from the mapping).  This is expressed as:
the entry for `dim` in the result equals `find?` of the eligibility
predicate over the reversed topological order. -/
theorem dim_rename_first_eligible (g : List (String × List String))
    (dims : List String) (fuel : Nat)
    (colors : List (String × List (String × ℚ))) (order : List String)
    (hc : TC.colorDims g dims fuel = some colors)
    (hs : Topo.topoSort g = .ok order)
    (hnd : dims.Nodup) (dim : String) (hdim : dim ∈ dims) :
    ∃ nc, TC.dimNameChanges g dims fuel = some nc ∧
      nc.lookup dim = order.reverse.find? (fun node =>
        TC.hasFullColorOfDim colors node dims dim) := by
  refine ⟨TC.dimNameChangesFrom colors order.reverse dims, ?_, ?_⟩
  · unfold TC.dimNameChanges
    rw [hc, hs]
  · exact TC.dimNameChangesFrom_lookup colors order.reverse dims dims hnd
      dim hdim

/-- Witness for `dim_rename_first_eligible`: the concrete graph
`{y: compute from dimension coordinate x}`; `y` inherits color 1 for `x`
and, being first in the reversed topological order, takes over the
dimension name. -/
theorem dim_rename_first_eligible_witness :
    ∃ nc, TC.dimNameChanges [("x", []), ("y", ["x"])] ["x"] 10 = some nc ∧
      nc.lookup "x" = ["y", "x"].find? (fun node =>
        TC.hasFullColorOfDim [("x", [("x", 1)]), ("y", [("x", 1)])] node
          ["x"] "x") :=
  dim_rename_first_eligible [("x", []), ("y", ["x"])] ["x"] 10
    [("x", [("x", 1)]), ("y", [("x", 1)])] ["x", "y"]
    (by
      norm_num [TC.colorDims, TC.colorLoop, TC.childrenOf, TC.colorInit,
        TC.setColor, TC.getColor, TC.setKey, List.lookup, List.filter,
        List.filterMap, List.foldl]
      decide)
    (by rfl) (by simp) "x" (by simp)

namespace BinRemap

/-- Inclusive cumulative sum starting from `acc` (`cumsum`). -/
def cumsumFrom (acc : Nat) : List Nat → List Nat
  | [] => []
  | x :: xs => (acc + x) :: cumsumFrom (acc + x) xs

/-- Embedding of `cumsum`: inclusive cumulative sum. -/
def cumsum (l : List Nat) : List Nat :=
  cumsumFrom 0 l

/-- Exclusive cumulative sum starting from `acc`: the value before adding
each element (`out_begin = out_end - sizes`). -/
def exFrom (acc : Nat) : List Nat → List Nat
  | [] => []
  | x :: xs => acc :: exFrom (acc + x) xs

/-- A binned variable with the concatenation dimension moved innermost:
a flat content buffer and, per (outer index, dim index), the (begin, end)
offset pair of the bin's slice.  The outer list runs over the remaining
dimensions (row-major), the inner list along the concatenated dimension,
matching `sizes.transpose(out_dims + [dim])` in `_concat_bins_variable`. -/
structure BinnedGrid (α : Type) where
  content : List α
  bins : List (List (Nat × Nat))

/-- The events of one bin: the content-buffer slice `[begin, end)`. -/
def extract {α : Type} (content : List α) (p : Nat × Nat) : List α :=
  (content.drop p.1).take (p.2 - p.1)

/-- `var.bins.size()`: per-bin sizes, computed elementwise as end − begin. -/
def sizesGrid {α : Type} (v : BinnedGrid α) : List (List Nat) :=
  v.bins.map (fun row => row.map (fun p => p.2 - p.1))

/-- All bins' events in row-major order (dim innermost). -/
def binsFlat {α : Type} (v : BinnedGrid α) : List (List α) :=
  (v.bins.map (fun row => row.map (extract v.content))).flatten

/-- Write `xs` into `buf` at offset `off` (one ragged slice of the bulk
assignment `out[...] = var`). -/
def writeAt {β : Type} (buf : List β) (off : Nat) (xs : List β) : List β :=
  buf.take off ++ xs ++ buf.drop (off + xs.length)

/-- Bulk assignment `out[...] = var`: write every input bin's events at its
output offset. -/
def scatter {α : Type} (cells : List (Nat × List α))
    (buf : List (Option α)) : List (Option α) :=
  cells.foldl (fun b c => writeAt b c.1 (c.2.map some)) buf

/-- The output of a remap: a content buffer (`Option` marks the
uninitialized cells of `copy_for_overwrite`) with flat per-bin begin/end
offset arrays. -/
structure BinnedFlat (α : Type) where
  content : List (Option α)
  bBegin : List Nat
  bEnd : List Nat

/-- Embedding of `_replace_bin_sizes`: rebuild the offsets from `sizes` by
a fresh cumulative sum (`out_end = cumsum(sizes)`,
`out_begin = out_end - sizes`), keeping the content buffer and ignoring
the variable's own begin/end. -/
def replaceBinSizes {α : Type} (var : BinnedFlat α) (sizes : List Nat) :
    BinnedFlat α :=
  { content := var.content
    bBegin := List.zipWith (fun e s => e - s) (cumsum sizes) sizes
    bEnd := cumsum sizes }

/-- Embedding of `_remap_bins`: allocate an uninitialized buffer of the
original content's size (`copy_for_overwrite`), copy every bin to its new
offsets (`out[...] = var`), then rebuild the final offsets from the merged
sizes (`_replace_bin_sizes`).  `outBegin`/`outEnd` are the per-bin output
offsets in row-major order (dim innermost). -/
def remapBins {α : Type} (v : BinnedGrid α) (outBegin outEnd : List Nat)
    (outSizes : List Nat) : BinnedFlat α :=
  replaceBinSizes
    { content := scatter (outBegin.zip (binsFlat v))
        (List.replicate v.content.length none)
      bBegin := outBegin
      bEnd := outEnd }
    outSizes

/-- Embedding of `_concat_bins_variable`: with `dim` innermost, take the
cumulative sum of the flattened sizes for the new end offsets, subtract the
sizes for the begin offsets, sum over `dim` for the merged sizes, and
remap. -/
def concatBinsVariable {α : Type} (v : BinnedGrid α) : BinnedFlat α :=
  let sFlat := (sizesGrid v).flatten
  remapBins v
    (List.zipWith (fun e s => e - s) (cumsum sFlat) sFlat)
    (cumsum sFlat)
    ((sizesGrid v).map List.sum)

/-- A metadata variable as far as `_reduced` is concerned: only its
dimension labels matter. -/
structure MVar where
  dims : List String
  deriving DecidableEq, Repr

/-- Embedding of `_reduced`: keep only the entries that do not span
`dim`. -/
def reduced (obj : List (String × MVar)) (dim : String) :
    List (String × MVar) :=
  obj.filter (fun p => decide (dim ∉ p.2.dims))

/-- A binned `DataArray` as consumed by `hide_masked_and_reduce_meta`,
with the outer index space flattened: content buffer, per-outer-index
begin/end offsets, and the three metadata dicts. -/
structure HDA (α : Type) where
  content : List α
  bBegin : List Nat
  bEnd : List Nat
  coords : List (String × MVar)
  masks : List (String × MVar)
  attrs : List (String × MVar)

/-- Select the entries of `l` at unmasked positions (`select = ~mask`,
boolean indexing of the begin/end arrays only). -/
def selectNot (m : List Bool) (l : List Nat) : List Nat :=
  (l.zip m).filterMap (fun p => if p.2 then none else some p.1)

/-- Embedding of `hide_masked_and_reduce_meta`.  `irreducible` is the
result of `irreducible_mask(da.masks, dim)`, which lives in `dataset.py`
outside this source tree; modelled from the spec as an optional
per-outer-index boolean mask (a mask uniform along `dim`, collapsed).
When a mask exists, only the begin/end arrays are filtered and the content
buffer is reused unchanged; metadata spanning `dim` is dropped. -/
def hideMaskedAndReduceMeta {α : Type} (da : HDA α) (dim : String)
    (irreducible : Option (List Bool)) : HDA α :=
  match irreducible with
  | some m =>
    { content := da.content
      bBegin := selectNot m da.bBegin
      bEnd := selectNot m da.bEnd
      coords := reduced da.coords dim
      masks := reduced da.masks dim
      attrs := reduced da.attrs dim }
  | none =>
    { da with
      coords := reduced da.coords dim
      masks := reduced da.masks dim
      attrs := reduced da.attrs dim }

theorem cumsumFrom_length (a : Nat) :
    ∀ (l : List Nat), (cumsumFrom a l).length = l.length := by
  intro l
  induction l generalizing a with
  | nil => rfl
  | cons x xs ih => simp [cumsumFrom, ih]

theorem exFrom_length (a : Nat) :
    ∀ (l : List Nat), (exFrom a l).length = l.length := by
  intro l
  induction l generalizing a with
  | nil => rfl
  | cons x xs ih => simp [exFrom, ih]

theorem zipWith_sub_cumsumFrom :
    ∀ (l : List Nat) (a : Nat),
      List.zipWith (fun e s => e - s) (cumsumFrom a l) l = exFrom a l := by
  intro l
  induction l with
  | nil => intro a; rfl
  | cons x xs ih =>
    intro a
    simp only [cumsumFrom, exFrom, List.zipWith_cons_cons]
    rw [Nat.add_sub_cancel]
    rw [ih]

theorem zipWith_sub_cumsum_exFrom :
    ∀ (l : List Nat) (a : Nat),
      List.zipWith (fun e b => e - b) (cumsumFrom a l) (exFrom a l) = l := by
  intro l
  induction l with
  | nil => intro a; rfl
  | cons x xs ih =>
    intro a
    simp only [cumsumFrom, exFrom, List.zipWith_cons_cons]
    rw [Nat.add_sub_cancel_left]
    rw [ih]

theorem exFrom_eq_dropLast :
    ∀ (l : List Nat) (a : Nat),
      exFrom a l = (a :: cumsumFrom a l).dropLast := by
  intro l
  induction l with
  | nil => intro a; rfl
  | cons x xs ih =>
    intro a
    simp only [exFrom, cumsumFrom]
    rw [ih (a + x)]
    rfl

theorem exFrom_sum (a : Nat) :
    ∀ (l : List Nat), (cumsumFrom a l).getLast? =
      if l.isEmpty then none else some (a + l.sum) := by
  intro l
  induction l generalizing a with
  | nil => rfl
  | cons x xs ih =>
    cases xs with
    | nil => simp [cumsumFrom]
    | cons y ys =>
      have := ih (a + x)
      simp only [cumsumFrom] at this ⊢
      rw [List.getLast?_cons_cons]
      rw [this]
      simp [Nat.add_assoc]

/-- All bins lie inside the content buffer (the data-model invariant
`0 <= begin <= end <= len(content)`). -/
def ValidGrid {α : Type} (v : BinnedGrid α) : Prop :=
  ∀ row ∈ v.bins, ∀ p ∈ row, p.1 ≤ p.2 ∧ p.2 ≤ v.content.length

/-- Total number of events over all bins. -/
def totalEvents {α : Type} (v : BinnedGrid α) : Nat :=
  ((sizesGrid v).flatten).sum

theorem extract_length {α : Type} (content : List α) (p : Nat × Nat)
    (h1 : p.1 ≤ p.2) (h2 : p.2 ≤ content.length) :
    (extract content p).length = p.2 - p.1 := by
  unfold extract
  rw [List.length_take, List.length_drop]
  omega

theorem binsFlat_map_length {α : Type} {v : BinnedGrid α}
    (hv : ValidGrid v) :
    (binsFlat v).map List.length = (sizesGrid v).flatten := by
  unfold binsFlat sizesGrid
  rw [List.map_flatten]
  congr 1
  rw [List.map_map]
  apply List.map_congr_left
  intro row hrow
  simp only [Function.comp]
  rw [List.map_map]
  apply List.map_congr_left
  intro p hp
  simp only [Function.comp]
  exact extract_length v.content p (hv row hrow p hp).1 (hv row hrow p hp).2

theorem writeAt_length {β : Type} (buf : List β) (off : Nat) (xs : List β)
    (h : off + xs.length ≤ buf.length) :
    (writeAt buf off xs).length = buf.length := by
  unfold writeAt
  rw [List.length_append, List.length_append, List.length_take,
    List.length_drop]
  omega

theorem scatter_tiles {α : Type} :
    ∀ (cells : List (List α)) (base : Nat) (buf : List (Option α)),
      base + ((cells.map List.length).sum) ≤ buf.length →
      scatter ((exFrom base (cells.map List.length)).zip cells) buf =
        buf.take base ++ (cells.flatten.map some) ++
          buf.drop (base + (cells.map List.length).sum) := by
  intro cells
  induction cells with
  | nil =>
    intro base buf h
    show buf = buf.take base ++ ([].map some) ++ buf.drop (base + 0)
    simp [List.take_append_drop]
  | cons c cs ih =>
    intro base buf h
    have hsum : base + (c.length + (cs.map List.length).sum) ≤ buf.length := by
      simpa using h
    have hlen : base + c.length ≤ buf.length := by omega
    have hmaplen : (c.map (some : α → Option α)).length = c.length := by
      simp
    have hnew : writeAt buf base (c.map some) =
        (buf.take base ++ c.map some) ++ buf.drop (base + c.length) := by
      unfold writeAt
      rw [hmaplen, List.append_assoc]
    have hnewlen : (writeAt buf base (c.map some)).length = buf.length :=
      writeAt_length buf base _ (by rw [hmaplen]; exact hlen)
    have hprefixlen : (buf.take base ++ c.map some).length =
        base + c.length := by
      rw [List.length_append, List.length_take, hmaplen]
      omega
    have hrec := ih (base + c.length) (writeAt buf base (c.map some)) (by
      rw [hnewlen]
      omega)
    show scatter ((exFrom (base + c.length) (cs.map List.length)).zip cs)
        (writeAt buf base (c.map some)) =
      buf.take base ++ ((c ++ cs.flatten).map some) ++
        buf.drop (base + (c.length + (cs.map List.length).sum))
    rw [hrec, hnew]
    have htake : ((buf.take base ++ c.map some) ++
        buf.drop (base + c.length)).take (base + c.length) =
        buf.take base ++ c.map some := by
      rw [← hprefixlen]
      exact List.take_left _ _
    have hdrop : ((buf.take base ++ c.map some) ++
        buf.drop (base + c.length)).drop
          (base + c.length + (cs.map List.length).sum) =
        buf.drop (base + (c.length + (cs.map List.length).sum)) := by
      have h1 : base + c.length + (cs.map List.length).sum =
          (buf.take base ++ c.map some).length + (cs.map List.length).sum := by
        rw [hprefixlen]
      rw [h1, List.drop_append, List.drop_drop]
      congr 1
      omega
    rw [htake, hdrop]
    rw [List.map_append]
    simp [List.append_assoc]

theorem sum_flatten : ∀ (L : List (List Nat)),
    L.flatten.sum = (L.map List.sum).sum := by
  intro L
  induction L with
  | nil => rfl
  | cons x xs ih => simp [List.flatten_cons, List.sum_append, ih]

theorem flatten_flatten {β : Type} : ∀ (L : List (List (List β))),
    L.flatten.flatten = (L.map List.flatten).flatten := by
  intro L
  induction L with
  | nil => rfl
  | cons x xs ih => simp [List.flatten_cons, List.flatten_append, ih]

theorem exFrom_getD : ∀ (l : List Nat) (a i : Nat), i < l.length →
    (exFrom a l).getD i 0 = a + (l.take i).sum := by
  intro l
  induction l with
  | nil => intro a i hi; cases hi
  | cons x xs ih =>
    intro a i hi
    cases i with
    | zero => simp [exFrom]
    | succ i =>
      have hi' : i < xs.length := by simpa using hi
      simp only [exFrom, List.getD_cons_succ, List.take_succ_cons,
        List.sum_cons]
      rw [ih (a + x) i hi']
      omega

theorem cumsumFrom_getD : ∀ (l : List Nat) (a i : Nat), i < l.length →
    (cumsumFrom a l).getD i 0 = a + (l.take (i + 1)).sum := by
  intro l
  induction l with
  | nil => intro a i hi; cases hi
  | cons x xs ih =>
    intro a i hi
    cases i with
    | zero => simp [cumsumFrom]
    | succ i =>
      have hi' : i < xs.length := by simpa using hi
      simp only [cumsumFrom, List.getD_cons_succ, List.take_succ_cons,
        List.sum_cons]
      rw [ih (a + x) i hi']
      omega

theorem take_succ_sum : ∀ (l : List Nat) (i : Nat) (hi : i < l.length),
    (l.take (i + 1)).sum = (l.take i).sum + l.get ⟨i, hi⟩ := by
  intro l
  induction l with
  | nil => intro i hi; cases hi
  | cons x xs ih =>
    intro i hi
    cases i with
    | zero => simp
    | succ i =>
      have hi' : i < xs.length := by simpa using hi
      simp only [List.take_succ_cons, List.sum_cons]
      rw [ih i hi']
      simp [Nat.add_assoc]

theorem take_sum_add_get_le : ∀ (l : List Nat) (i : Nat) (hi : i < l.length),
    (l.take i).sum + l.get ⟨i, hi⟩ ≤ l.sum := by
  intro l
  induction l with
  | nil => intro i hi; cases hi
  | cons x xs ih =>
    intro i hi
    cases i with
    | zero =>
      have hg : (x :: xs).get ⟨0, hi⟩ = x := rfl
      simp only [List.take_zero, List.sum_nil, Nat.zero_add, hg,
        List.sum_cons]
      omega
    | succ i =>
      have hi' : i < xs.length := by simpa using hi
      simp only [List.take_succ_cons, List.sum_cons, List.sum_cons]
      have := ih i hi'
      have hg : (x :: xs).get ⟨i + 1, hi⟩ = xs.get ⟨i, hi'⟩ := rfl
      rw [hg]
      omega

theorem flatten_drop_take {β : Type} :
    ∀ (B : List (List β)) (i : Nat) (hi : i < B.length),
      ((B.flatten).drop (((B.map List.length).take i).sum)).take
        ((B.get ⟨i, hi⟩).length) = B.get ⟨i, hi⟩ := by
  intro B
  induction B with
  | nil => intro i hi; cases hi
  | cons b bs ih =>
    intro i hi
    cases i with
    | zero =>
      simp only [List.map_cons, List.take_zero, List.sum_nil,
        List.drop_zero, List.flatten_cons, List.get_cons_zero]
      rw [List.take_append_eq_append_take]
      simp
    | succ i =>
      have hi' : i < bs.length := by simpa using hi
      have hg : (b :: bs).get ⟨i + 1, hi⟩ = bs.get ⟨i, hi'⟩ := rfl
      simp only [List.map_cons, List.take_succ_cons, List.sum_cons,
        List.flatten_cons, hg]
      have hd : (b ++ bs.flatten).drop
          (b.length + ((bs.map List.length).take i).sum) =
          bs.flatten.drop (((bs.map List.length).take i).sum) :=
        List.drop_append _
      rw [hd]
      exact ih i hi'

end BinRemap

/-- C7: For every binned variable produced by a remap operation
(`_remap_bins`), the final begin/end offset arrays are rebuilt from the
output sizes by a fresh cumulative-sum pass: end is the inclusive
cumulative sum of the sizes and begin is end minus sizes, so the output
bins are contiguous and ordered — the first begin is 0 and each bin's
begin equals the previous bin's end in the summation order (expressed as
`begin = (0 :: end).dropLast`), the per-bin extents are exactly the
requested sizes — and the offsets are independent of the caller-supplied
begin/end arrays, regardless of any inconsistency between them and the
sizes. -/
theorem remap_rebuilds_offsets {α : Type} (v : BinRemap.BinnedGrid α)
    (outBegin outEnd sizes : List Nat) :
    (BinRemap.remapBins v outBegin outEnd sizes).bEnd =
      BinRemap.cumsum sizes ∧
    (BinRemap.remapBins v outBegin outEnd sizes).bBegin =
      List.zipWith (fun e s => e - s) (BinRemap.cumsum sizes) sizes ∧
    (BinRemap.remapBins v outBegin outEnd sizes).bBegin =
      (0 :: (BinRemap.remapBins v outBegin outEnd sizes).bEnd).dropLast ∧
    List.zipWith (fun e b => e - b)
      (BinRemap.remapBins v outBegin outEnd sizes).bEnd
      (BinRemap.remapBins v outBegin outEnd sizes).bBegin = sizes ∧
    (∀ (outBegin2 outEnd2 : List Nat),
      (BinRemap.remapBins v outBegin2 outEnd2 sizes).bBegin =
        (BinRemap.remapBins v outBegin outEnd sizes).bBegin ∧
      (BinRemap.remapBins v outBegin2 outEnd2 sizes).bEnd =
        (BinRemap.remapBins v outBegin outEnd sizes).bEnd) := by
  have hbegin : (BinRemap.remapBins v outBegin outEnd sizes).bBegin =
      BinRemap.exFrom 0 sizes := by
    show List.zipWith (fun e s => e - s)
      (BinRemap.cumsumFrom 0 sizes) sizes = _
    exact BinRemap.zipWith_sub_cumsumFrom sizes 0
  refine ⟨rfl, rfl, ?_, ?_, ?_⟩
  · rw [hbegin]
    exact BinRemap.exFrom_eq_dropLast sizes 0
  · rw [hbegin]
    exact BinRemap.zipWith_sub_cumsum_exFrom sizes 0
  · intro outBegin2 outEnd2
    exact ⟨rfl, rfl⟩

/-- C2: For every binned variable (with the concatenation dimension moved
innermost) whose bins lie inside the content buffer and whose total event
count fits the buffer, `concat_bins` (`_concat_bins_variable` followed by
`_remap_bins`) produces an output whose total event count — the sum of
output bin sizes, computed elementwise as end minus begin — equals the sum
of all input bin sizes; the output content region is exactly the
concatenation of all input bins in row-major order, so every input event
is placed exactly once (none duplicated or dropped); and each output bin
`i` contains exactly the concatenation of input row `i`'s bins, preserving
per-outer-index event order and the concatenation order along the
collapsed dimension. -/
theorem getD_map_length {β : Type} :
    ∀ (B : List (List β)) (i : Nat),
      (B.map List.length).getD i 0 = (B.getD i []).length := by
  intro B
  induction B with
  | nil => intro i; cases i <;> rfl
  | cons b bs ih =>
    intro i
    cases i with
    | zero => rfl
    | succ i => exact ih i

theorem concat_bins_conserves {α : Type} (v : BinRemap.BinnedGrid α)
    (hv : BinRemap.ValidGrid v)
    (hfit : BinRemap.totalEvents v ≤ v.content.length) :
    (List.zipWith (fun e b => e - b)
        (BinRemap.concatBinsVariable v).bEnd
        (BinRemap.concatBinsVariable v).bBegin).sum =
      BinRemap.totalEvents v ∧
    (BinRemap.concatBinsVariable v).content.take (BinRemap.totalEvents v) =
      ((BinRemap.binsFlat v).flatten).map some ∧
    (∀ (i : Nat) (hi : i < v.bins.length),
      ((BinRemap.concatBinsVariable v).content.drop
          ((BinRemap.concatBinsVariable v).bBegin.getD i 0)).take
        ((BinRemap.concatBinsVariable v).bEnd.getD i 0 -
          (BinRemap.concatBinsVariable v).bBegin.getD i 0) =
      ((v.bins.get ⟨i, hi⟩).map (BinRemap.extract v.content)).flatten.map
        some) := by
  have hbegin : (BinRemap.concatBinsVariable v).bBegin =
      BinRemap.exFrom 0 ((BinRemap.sizesGrid v).map List.sum) :=
    BinRemap.zipWith_sub_cumsumFrom _ 0
  have hend : (BinRemap.concatBinsVariable v).bEnd =
      BinRemap.cumsumFrom 0 ((BinRemap.sizesGrid v).map List.sum) := rfl
  have hRSsum : ((BinRemap.sizesGrid v).map List.sum).sum =
      BinRemap.totalEvents v :=
    (BinRemap.sum_flatten (BinRemap.sizesGrid v)).symm
  have hsFlat : (BinRemap.binsFlat v).map List.length =
      (BinRemap.sizesGrid v).flatten := BinRemap.binsFlat_map_length hv
  have hT : ((BinRemap.binsFlat v).map List.length).sum =
      BinRemap.totalEvents v := by
    rw [hsFlat]
    rfl
  have hcontent : (BinRemap.concatBinsVariable v).content =
      BinRemap.scatter
        ((BinRemap.exFrom 0 ((BinRemap.binsFlat v).map List.length)).zip
          (BinRemap.binsFlat v))
        (List.replicate v.content.length none) := by
    show BinRemap.scatter
      ((List.zipWith (fun e s => e - s)
        (BinRemap.cumsumFrom 0 ((BinRemap.sizesGrid v).flatten))
        ((BinRemap.sizesGrid v).flatten)).zip (BinRemap.binsFlat v))
      (List.replicate v.content.length none) = _
    rw [BinRemap.zipWith_sub_cumsumFrom, ← hsFlat]
  have htiles : (BinRemap.concatBinsVariable v).content =
      (((BinRemap.binsFlat v).flatten).map some) ++
        (List.replicate v.content.length (none : Option α)).drop
          (BinRemap.totalEvents v) := by
    rw [hcontent, BinRemap.scatter_tiles (BinRemap.binsFlat v) 0
      (List.replicate v.content.length none)
      (by rw [List.length_replicate, hT]; omega)]
    rw [hT]
    simp
  have hMlen : ((((BinRemap.binsFlat v).flatten).map
      (some : α → Option α))).length = BinRemap.totalEvents v := by
    rw [List.length_map, List.length_flatten, hT]
  refine ⟨?_, ?_, ?_⟩
  · rw [hend, hbegin, BinRemap.zipWith_sub_cumsum_exFrom]
    exact hRSsum
  · rw [htiles, List.take_append_eq_append_take, ← hMlen,
      List.take_length, Nat.sub_self, List.take_zero, List.append_nil]
  · intro i hi
    have hRSlen : ((BinRemap.sizesGrid v).map List.sum).length =
        v.bins.length := by
      simp [BinRemap.sizesGrid]
    have hiRS : i < ((BinRemap.sizesGrid v).map List.sum).length := by
      rw [hRSlen]
      exact hi
    have hbg : (BinRemap.concatBinsVariable v).bBegin.getD i 0 =
        (((BinRemap.sizesGrid v).map List.sum).take i).sum := by
      rw [hbegin, BinRemap.exFrom_getD _ 0 i hiRS]
      omega
    have hgD : ((BinRemap.sizesGrid v).map List.sum).getD i 0 =
        ((BinRemap.sizesGrid v).map List.sum).get ⟨i, hiRS⟩ := by
      rw [List.getD_eq_getElem _ _ hiRS, List.get_eq_getElem]
    have hed : (BinRemap.concatBinsVariable v).bEnd.getD i 0 =
        (((BinRemap.sizesGrid v).map List.sum).take (i + 1)).sum := by
      rw [hend, BinRemap.cumsumFrom_getD _ 0 i hiRS]
      omega
    have hext : (BinRemap.concatBinsVariable v).bEnd.getD i 0 -
        (BinRemap.concatBinsVariable v).bBegin.getD i 0 =
        ((BinRemap.sizesGrid v).map List.sum).getD i 0 := by
      rw [hbg, hed, BinRemap.take_succ_sum _ i hiRS, hgD]
      omega
    have hFB : (BinRemap.binsFlat v).flatten =
        (v.bins.map (fun (row : List (Nat × Nat)) =>
          (row.map (BinRemap.extract v.content)).flatten)).flatten := by
      unfold BinRemap.binsFlat
      rw [BinRemap.flatten_flatten, List.map_map]
      rfl
    have hBlen : (v.bins.map (fun (row : List (Nat × Nat)) =>
        (row.map (BinRemap.extract v.content)).flatten)).map List.length =
        (BinRemap.sizesGrid v).map List.sum := by
      rw [List.map_map]
      unfold BinRemap.sizesGrid
      rw [List.map_map]
      apply List.map_congr_left
      intro row hrow
      simp only [Function.comp]
      rw [List.length_flatten, List.map_map]
      congr 1
      apply List.map_congr_left
      intro p hp
      simp only [Function.comp]
      exact BinRemap.extract_length v.content p (hv row hrow p hp).1
        (hv row hrow p hp).2
    have hiB : i < (v.bins.map (fun (row : List (Nat × Nat)) =>
        (row.map (BinRemap.extract v.content)).flatten)).length := by
      rw [List.length_map]
      exact hi
    have hgetD2 : ((BinRemap.sizesGrid v).map List.sum).getD i 0 =
        ((v.bins.map (fun (row : List (Nat × Nat)) =>
          (row.map (BinRemap.extract v.content)).flatten)).get
            ⟨i, hiB⟩).length := by
      rw [← hBlen, getD_map_length]
      congr 1
      rw [List.getD_eq_getElem _ _ hiB, List.get_eq_getElem]
    have hbound : (((BinRemap.sizesGrid v).map List.sum).take i).sum +
        ((BinRemap.sizesGrid v).map List.sum).getD i 0 ≤
        BinRemap.totalEvents v := by
      rw [hgD, ← hRSsum]
      exact BinRemap.take_sum_add_get_le _ i hiRS
    rw [hext, hbg, htiles]
    rw [List.drop_append_eq_append_drop]
    have hsub : (((BinRemap.sizesGrid v).map List.sum).take i).sum -
        (((BinRemap.binsFlat v).flatten).map (some : α → Option α)).length
        = 0 := by
      rw [hMlen]
      omega
    rw [hsub, List.drop_zero, List.take_append_eq_append_take]
    have hdlen : ((((BinRemap.binsFlat v).flatten).map
        (some : α → Option α)).drop
          ((((BinRemap.sizesGrid v).map List.sum).take i).sum)).length =
        BinRemap.totalEvents v -
          (((BinRemap.sizesGrid v).map List.sum).take i).sum := by
      rw [List.length_drop, hMlen]
    have hsub2 : ((BinRemap.sizesGrid v).map List.sum).getD i 0 -
        ((((BinRemap.binsFlat v).flatten).map
          (some : α → Option α)).drop
            ((((BinRemap.sizesGrid v).map List.sum).take i).sum)).length
        = 0 := by
      rw [hdlen]
      omega
    rw [hsub2, List.take_zero, List.append_nil]
    rw [← List.map_drop, ← List.map_take]
    rw [hFB]
    have hexi : (((BinRemap.sizesGrid v).map List.sum).take i).sum =
        (((v.bins.map (fun (row : List (Nat × Nat)) =>
          (row.map (BinRemap.extract v.content)).flatten)).map
            List.length).take i).sum := by
      rw [hBlen]
    rw [hexi, hgetD2, BinRemap.flatten_drop_take _ i hiB]
    congr 1
    rw [List.get_eq_getElem, List.get_eq_getElem, List.getElem_map]

/-- Witness for C2: the conservation theorem applied to a concrete binned
variable with content `[10, 11, 12, 13, 14]` and one outer row of two bins
`[0, 2)` and `[2, 5)` along the concatenated dimension. -/
theorem concat_bins_conserves_witness :
    BinRemap.ValidGrid
      (⟨[10, 11, 12, 13, 14], [[(0, 2), (2, 5)]]⟩ :
        BinRemap.BinnedGrid Nat) ∧
    BinRemap.totalEvents
      (⟨[10, 11, 12, 13, 14], [[(0, 2), (2, 5)]]⟩ :
        BinRemap.BinnedGrid Nat) ≤ 5 ∧
    (List.zipWith (fun e b => e - b)
        (BinRemap.concatBinsVariable
          (⟨[10, 11, 12, 13, 14], [[(0, 2), (2, 5)]]⟩ :
            BinRemap.BinnedGrid Nat)).bEnd
        (BinRemap.concatBinsVariable
          (⟨[10, 11, 12, 13, 14], [[(0, 2), (2, 5)]]⟩ :
            BinRemap.BinnedGrid Nat)).bBegin).sum =
      BinRemap.totalEvents
        (⟨[10, 11, 12, 13, 14], [[(0, 2), (2, 5)]]⟩ :
          BinRemap.BinnedGrid Nat) ∧
    (BinRemap.concatBinsVariable
        (⟨[10, 11, 12, 13, 14], [[(0, 2), (2, 5)]]⟩ :
          BinRemap.BinnedGrid Nat)).content.take
        (BinRemap.totalEvents
          (⟨[10, 11, 12, 13, 14], [[(0, 2), (2, 5)]]⟩ :
            BinRemap.BinnedGrid Nat)) =
      ((BinRemap.binsFlat
          (⟨[10, 11, 12, 13, 14], [[(0, 2), (2, 5)]]⟩ :
            BinRemap.BinnedGrid Nat)).flatten).map some ∧
    ((BinRemap.concatBinsVariable
        (⟨[10, 11, 12, 13, 14], [[(0, 2), (2, 5)]]⟩ :
          BinRemap.BinnedGrid Nat)).content.drop
        ((BinRemap.concatBinsVariable
          (⟨[10, 11, 12, 13, 14], [[(0, 2), (2, 5)]]⟩ :
            BinRemap.BinnedGrid Nat)).bBegin.getD 0 0)).take
        ((BinRemap.concatBinsVariable
          (⟨[10, 11, 12, 13, 14], [[(0, 2), (2, 5)]]⟩ :
            BinRemap.BinnedGrid Nat)).bEnd.getD 0 0 -
         (BinRemap.concatBinsVariable
          (⟨[10, 11, 12, 13, 14], [[(0, 2), (2, 5)]]⟩ :
            BinRemap.BinnedGrid Nat)).bBegin.getD 0 0) =
      ((([[(0, 2), (2, 5)]] : List (List (Nat × Nat))).get
          ⟨0, by decide⟩).map
        (BinRemap.extract [10, 11, 12, 13, 14])).flatten.map some := by
  refine ⟨by unfold BinRemap.ValidGrid; decide, by decide, ?_, ?_, ?_⟩
  · exact (concat_bins_conserves
      (⟨[10, 11, 12, 13, 14], [[(0, 2), (2, 5)]]⟩ :
        BinRemap.BinnedGrid Nat)
      (by unfold BinRemap.ValidGrid; decide) (by decide)).1
  · exact (concat_bins_conserves
      (⟨[10, 11, 12, 13, 14], [[(0, 2), (2, 5)]]⟩ :
        BinRemap.BinnedGrid Nat)
      (by unfold BinRemap.ValidGrid; decide) (by decide)).2.1
  · exact (concat_bins_conserves
      (⟨[10, 11, 12, 13, 14], [[(0, 2), (2, 5)]]⟩ :
        BinRemap.BinnedGrid Nat)
      (by unfold BinRemap.ValidGrid; decide) (by decide)).2.2 0 (by decide)

theorem selectNot_nil_right (m : List Bool) :
    BinRemap.selectNot m [] = [] := by
  cases m <;> rfl

theorem selectNot_nil_left (l : List Nat) :
    BinRemap.selectNot [] l = [] := by
  cases l <;> rfl

theorem selectNot_cons (b : Bool) (m : List Bool) (x : Nat)
    (xs : List Nat) :
    BinRemap.selectNot (b :: m) (x :: xs) =
      if b then BinRemap.selectNot m xs
      else x :: BinRemap.selectNot m xs := by
  cases b <;> rfl

theorem selectNot_zipWith (f : Nat → Nat → Nat) :
    ∀ (m : List Bool) (xs ys : List Nat),
      List.zipWith f (BinRemap.selectNot m xs) (BinRemap.selectNot m ys) =
        BinRemap.selectNot m (List.zipWith f xs ys) := by
  intro m
  induction m with
  | nil =>
    intro xs ys
    simp [selectNot_nil_left]
  | cons b m ih =>
    intro xs ys
    cases xs with
    | nil => simp [selectNot_nil_right]
    | cons x xs =>
      cases ys with
      | nil => simp [selectNot_nil_right]
      | cons y ys =>
        rw [List.zipWith_cons_cons, selectNot_cons, selectNot_cons,
          selectNot_cons]
        cases b with
        | false => simp [ih]
        | true => simp [ih]

/-- C8: with an irreducible mask along `dim` present,
`hide_masked_and_reduce_meta` reuses the content buffer unchanged and
filters only the begin/end offset arrays to the unmasked outer indices;
every coordinate, mask, and attribute still spanning `dim` is dropped and
the others survive; and the per-outer-index event counts (end − begin) of
the result are exactly the unmasked entries of the input's counts, so a
masked outer index contributes zero events to the subsequent concat. -/
theorem masked_slices_hidden {α : Type} (da : BinRemap.HDA α)
    (dim : String) (m : List Bool) :
    (BinRemap.hideMaskedAndReduceMeta da dim (some m)).content =
      da.content ∧
    (BinRemap.hideMaskedAndReduceMeta da dim (some m)).bBegin =
      BinRemap.selectNot m da.bBegin ∧
    (BinRemap.hideMaskedAndReduceMeta da dim (some m)).bEnd =
      BinRemap.selectNot m da.bEnd ∧
    List.zipWith (fun e b => e - b)
        (BinRemap.hideMaskedAndReduceMeta da dim (some m)).bEnd
        (BinRemap.hideMaskedAndReduceMeta da dim (some m)).bBegin =
      BinRemap.selectNot m
        (List.zipWith (fun e b => e - b) da.bEnd da.bBegin) ∧
    (∀ p : String × BinRemap.MVar,
      p ∈ (BinRemap.hideMaskedAndReduceMeta da dim (some m)).coords ↔
        p ∈ da.coords ∧ dim ∉ p.2.dims) ∧
    (∀ p : String × BinRemap.MVar,
      p ∈ (BinRemap.hideMaskedAndReduceMeta da dim (some m)).masks ↔
        p ∈ da.masks ∧ dim ∉ p.2.dims) ∧
    (∀ p : String × BinRemap.MVar,
      p ∈ (BinRemap.hideMaskedAndReduceMeta da dim (some m)).attrs ↔
        p ∈ da.attrs ∧ dim ∉ p.2.dims) := by
  refine ⟨rfl, rfl, rfl, ?_, ?_, ?_, ?_⟩
  · exact selectNot_zipWith _ m da.bEnd da.bBegin
  · intro p
    simp [BinRemap.hideMaskedAndReduceMeta, BinRemap.reduced,
      List.mem_filter]
  · intro p
    simp [BinRemap.hideMaskedAndReduceMeta, BinRemap.reduced,
      List.mem_filter]
  · intro p
    simp [BinRemap.hideMaskedAndReduceMeta, BinRemap.reduced,
      List.mem_filter]

end Scipp
